import Mathlib

/-!
Shallow embedding of `codespan-reporting` (files.rs and term/views.rs).

Rust `&str` values are modelled as `List Char`; byte offsets use the UTF-8
byte size of each scalar value (`Char.utf8Size`), so byte indexing and
`is_char_boundary` behave as in Rust.
-/

namespace Codespan

/-- Total UTF-8 byte length of a string, as Rust `str::len`. -/
def utf8Len (s : List Char) : Nat :=
  (s.map Char.utf8Size).sum

/-- `str::char_indices` starting from byte offset `k`: the byte index of each
character paired with the character. -/
def charIndicesFrom (k : Nat) : List Char → List (Nat × Char)
  | [] => []
  | c :: cs => (k, c) :: charIndicesFrom (k + c.utf8Size) cs

/-- Rust `str::char_indices`. -/
def charIndices (s : List Char) : List (Nat × Char) :=
  charIndicesFrom 0 s

/-- Rust `str::is_char_boundary`: `i` is 0, the total length, or the starting
byte index of some character; indices past the end are not boundaries. -/
def is_char_boundary (s : List Char) (i : Nat) : Bool :=
  i == 0 || i == utf8Len s || (charIndices s).any (fun p => p.1 == i)

/-- files.rs `column_index`: the number of characters of `line_source` whose
starting byte index is strictly before `byte_index - line_start`, with a
byte index strictly inside a multi-byte character attributed to the
preceding boundary. -/
def column_index (line_source : List Char) (line_start byte_index : Nat) : Nat :=
  if byte_index < line_start then 0
  else
    let relative_index := byte_index - line_start
    let ci :=
      (((charIndices line_source).map Prod.fst).takeWhile (fun i => i < relative_index)).length
    if utf8Len line_source ≤ relative_index then ci
    else if is_char_boundary line_source relative_index then ci
    else ci - 1

/-- files.rs `column_number`: 1-indexed column. -/
def column_number (line_source : List Char) (line_start byte_index : Nat) : Nat :=
  column_index line_source line_start byte_index + 1

/-- files.rs `line_starts`: byte index 0 followed by the byte index just after
each newline character (`match_indices` of the one-byte pattern `\n`). -/
def line_starts (source : List Char) : List Nat :=
  0 :: (charIndices source).filterMap
    (fun p => if p.2 = '\n' then some (p.1 + 1) else none)

/-- files.rs `SimpleFile`: origin, source and the cached line-start offsets. -/
structure SimpleFile where
  origin : String
  source : List Char
  lineStarts : List Nat

/-- files.rs `SimpleFile::new`. -/
def SimpleFile.new (origin : String) (source : List Char) : SimpleFile :=
  { origin := origin, source := source, lineStarts := line_starts source }

/-- files.rs `SimpleFile::line_start`: the cached offset for an in-range line
index, the source length at index = number of lines, `None` past that. -/
def SimpleFile.line_start (f : SimpleFile) (line_index : Nat) : Option Nat :=
  if line_index < f.lineStarts.length then f.lineStarts.get? line_index
  else if line_index = f.lineStarts.length then some (utf8Len f.source)
  else none

/-- files.rs `SimpleFile::line_range`: `[line_start(i), line_start(i+1))`. -/
def SimpleFile.line_range (f : SimpleFile) (line_index : Nat) : Option (Nat × Nat) :=
  match f.line_start line_index, f.line_start (line_index + 1) with
  | some s, some t => some (s, t)
  | _, _ => none

/-- Behaviour of Rust `slice::binary_search` on the sorted `line_starts`
vector: `Except.ok i` with `xs[i] = x` when `x` occurs (the occurrence is
unique, `line_starts` is strictly increasing), otherwise `Except.error` of
the insertion point, the count of elements smaller than `x`. -/
def binary_search (xs : List Nat) (x : Nat) : Except Nat Nat :=
  match xs.indexOf? x with
  | some i => Except.ok i
  | none => Except.error (xs.countP (fun y => decide (y < x)))

/-- files.rs `SimpleFile::line_index` (`Files` impl): binary search over the
line starts; an exact match names that line, otherwise the line of the
preceding line start. -/
def SimpleFile.line_index (f : SimpleFile) (byte_index : Nat) : Option Nat :=
  match binary_search f.lineStarts byte_index with
  | Except.ok line => some line
  | Except.error next_line => some (next_line - 1)

/-- A resolved line as used by files.rs `Files::line`: 1-based number and
half-open byte range. -/
structure FileLine where
  number : Nat
  range : Nat × Nat
deriving DecidableEq

/-- files.rs `SimpleFile::line` (`Files` impl). -/
def SimpleFile.line (f : SimpleFile) (line_index : Nat) : Option FileLine :=
  (f.line_range line_index).map (fun r => { range := r, number := line_index + 1 })

/-- files.rs `SimpleFiles`: a vector of `SimpleFile`, indexed by insertion
order. -/
structure SimpleFiles where
  files : List SimpleFile

/-- files.rs `SimpleFiles::get`. -/
def SimpleFiles.get (fs : SimpleFiles) (file_id : Nat) : Option SimpleFile :=
  fs.files.get? file_id

/-- files.rs `SimpleFiles::line_index` (`Files` impl): delegates to the file
with the given id. -/
def SimpleFiles.line_index (fs : SimpleFiles) (file_id byte_index : Nat) : Option Nat :=
  (fs.get file_id).bind (fun f => f.line_index byte_index)

/-! ### term/views.rs -/

/-- Modelled from the spec: diagnostic severities (diagnostic.rs is not part
of the sources; §6 lists the severity roles error/warning/note/help/bug). -/
inductive Severity where
  | bug
  | error
  | warning
  | note
  | help
deriving DecidableEq

/-- Modelled from the spec: a label's style, Primary or Secondary (§3). -/
inductive LabelStyle where
  | primary
  | secondary
deriving DecidableEq

/-- Modelled from the spec: a label — file reference, half-open byte range,
style and message (§3); field shapes follow their uses in views.rs. -/
structure Label (FileId : Type) where
  style : LabelStyle
  file_id : FileId
  range : Nat × Nat
  message : String
deriving DecidableEq

/-- Modelled from the spec: a diagnostic — severity, optional code, message,
labels and notes (§3); field shapes follow their uses in views.rs. -/
structure Diagnostic (FileId : Type) where
  severity : Severity
  code : Option String
  message : String
  labels : List (Label FileId)
  notes : List String
deriving DecidableEq

/-- `MarkSeverity` as used by views.rs: the diagnostic's severity for a
Primary label, none for a Secondary one. -/
def MarkSeverity : Type := Option Severity

instance : DecidableEq MarkSeverity := by
  unfold MarkSeverity
  infer_instance

instance {E A : Type} [DecidableEq E] [DecidableEq A] : DecidableEq (Except E A) :=
  fun x y =>
    match x, y with
    | Except.error a, Except.error b =>
      if h : a = b then isTrue (by rw [h])
      else isFalse (by intro hc; cases hc; exact h rfl)
    | Except.error a, Except.ok b => isFalse (by intro hc; cases hc)
    | Except.ok a, Except.error b => isFalse (by intro hc; cases hc)
    | Except.ok a, Except.ok b =>
      if h : a = b then isTrue (by rw [h])
      else isFalse (by intro hc; cases hc; exact h rfl)

/-- term/display_list `Mark`, reconstructed from its construction sites in
views.rs: the connector shape for one label. -/
inductive Mark where
  | Single (range : Nat × Nat) (message : String)
  | MultiTopLeft
  | MultiTop (endIdx : Nat)
  | MultiLeft
  | MultiBottom (endIdx : Nat) (message : String)
deriving DecidableEq

/-- term/display_list `Locus`, reconstructed from its construction sites in
views.rs: origin, 1-based line number, 1-based column number. -/
structure Locus where
  origin : String
  line_number : Nat
  column_number : Nat
deriving DecidableEq

/-- term/display_list `Entry`, reconstructed from its construction sites in
views.rs. -/
inductive Entry where
  | Header (locus : Option Locus) (severity : Severity)
      (code : Option String) (message : String)
  | Empty
  | SourceStart (outer_padding : Nat) (locus : Locus)
  | SourceEmpty (outer_padding : Nat)
  | SourceBreak (outer_padding : Nat)
  | SourceLine (outer_padding : Nat) (line_number : Nat) (source : List Char)
      (marks : List (Option (MarkSeverity × Mark)))
  | SourceNote (outer_padding : Nat) (message : String)
deriving DecidableEq

/-- A resolved line as used by the `Files` trait views.rs is written against:
starting byte offset, 1-based number, and the line's source text. -/
structure ViewLine where
  start : Nat
  number : Nat
  source : List Char
deriving DecidableEq

/-- `Line::column_number` as views.rs calls it: delegates to the free
`column_number` of files.rs on the line's source and starting offset. -/
def ViewLine.column_number (l : ViewLine) (byte_index : Nat) : Nat :=
  Codespan.column_number l.source l.start byte_index

/-- The `Files` capability consumed by views.rs: origin, line by index and
line index by byte offset; each query may fail. -/
structure FilesIntf (FileId : Type) where
  origin : FileId → Option String
  line : FileId → Nat → Option ViewLine
  line_index : FileId → Nat → Option Nat

/-- Byte-slice a string from the start: `&s[..n]` for a boundary offset `n`. -/
def takeBytes : List Char → Nat → List Char
  | [], _ => []
  | c :: cs, n => if c.utf8Size ≤ n then c :: takeBytes cs (n - c.utf8Size) else []

/-- Byte-slice a string dropping the first `n` bytes: `&s[n..]` for a
boundary offset `n`. -/
def dropBytes : List Char → Nat → List Char
  | [], _ => []
  | c :: cs, n => if c.utf8Size ≤ n then dropBytes cs (n - c.utf8Size) else c :: cs

/-- Rust `char::is_whitespace`: the Unicode White_Space property. -/
def rustIsWhitespace (c : Char) : Bool :=
  let n := c.toNat
  n == 0x20 || (0x09 <= n && n <= 0x0d) || n == 0x85 || n == 0xa0 ||
    n == 0x1680 || (0x2000 <= n && n <= 0x200a) || n == 0x2028 || n == 0x2029 ||
    n == 0x202f || n == 0x205f || n == 0x3000

/-- `prefix_source.trim().is_empty()`: the string has no non-whitespace
character. -/
def trimIsEmpty (s : List Char) : Bool :=
  s.all rustIsWhitespace

/-- The `while` loop of views.rs `count_digits`, with an explicit fuel
argument (the number itself bounds the iteration count) so that the
function computes by structural recursion. -/
def count_digits_loop : Nat → Nat → Nat
  | _, 0 => 0
  | 0, _ + 1 => 0
  | fuel + 1, n + 1 => count_digits_loop fuel ((n + 1) / 10) + 1

/-- views.rs `count_digits`: decimal digit count, 0 for 0. -/
def count_digits (n : Nat) : Nat :=
  count_digits_loop n n

theorem count_digits_loop_invar (fuel1 : Nat) :
    ∀ fuel2 n, n ≤ fuel1 → n ≤ fuel2 →
      count_digits_loop fuel1 n = count_digits_loop fuel2 n := by
  induction fuel1 with
  | zero =>
    intro fuel2 n h1 _
    interval_cases n
    cases fuel2 with
    | zero => rfl
    | succ f2 => rfl
  | succ f1 ih =>
    intro fuel2 n h1 h2
    match n, fuel2 with
    | 0, 0 => rfl
    | 0, f2 + 1 => rfl
    | m + 1, f2 + 1 =>
      show count_digits_loop f1 ((m + 1) / 10) + 1 = count_digits_loop f2 ((m + 1) / 10) + 1
      have hd : (m + 1) / 10 < m + 1 := Nat.div_lt_self (by omega) (by omega)
      rw [ih f2 ((m + 1) / 10) (by omega) (by omega)]

/-- The recurrence of the views.rs loop: one digit per division by 10. -/
theorem count_digits_eq (n : Nat) :
    count_digits n = if n = 0 then 0 else count_digits (n / 10) + 1 := by
  match n with
  | 0 => rfl
  | m + 1 =>
    rw [if_neg (by omega)]
    show count_digits_loop m ((m + 1) / 10) + 1 = count_digits ((m + 1) / 10) + 1
    unfold count_digits
    have hd : (m + 1) / 10 < m + 1 := Nat.div_lt_self (by omega) (by omega)
    rw [count_digits_loop_invar m ((m + 1) / 10) ((m + 1) / 10) (by omega) (by omega)]

/-- views.rs `FileMark`: one label resolved against the source table. -/
structure FileMark where
  severity : MarkSeverity
  lines : List ViewLine
  range : Nat × Nat
  message : String
deriving DecidableEq

/-- views.rs `MarkedFile`: a file's origin with its collected marks. -/
structure MarkedFile where
  origin : String
  marks : List FileMark
deriving DecidableEq

/-- Rust `start_line_index..=end_line_index` as a list. -/
def rangeIncl (a b : Nat) : List Nat :=
  List.range' a (b + 1 - a)

/-- The per-label line collection of views.rs: each line index is resolved
through `Files::line` (a miss aborts with "line") while `outer_padding`
accumulates the max digit count of the line numbers seen. -/
def collect_lines {FileId : Type} (fs : FilesIntf FileId) (file_id : FileId) :
    List Nat → Nat → Except String (List ViewLine × Nat)
  | [], pad => Except.ok ([], pad)
  | idx :: rest, pad =>
    match fs.line file_id idx with
    | none => Except.error "line"
    | some l =>
      match collect_lines fs file_id rest (max pad (count_digits l.number)) with
      | Except.error e => Except.error e
      | Except.ok (lines, pad2) => Except.ok (l :: lines, pad2)

/-- The grouping insertion of views.rs: find the marked file with this id and
push the mark, or resolve the origin (a miss aborts with "origin") and push
a new marked file at the back. -/
def add_mark {FileId : Type} [DecidableEq FileId] (fs : FilesIntf FileId)
    (file_id : FileId) (fm : FileMark) :
    List (FileId × MarkedFile) → Except String (List (FileId × MarkedFile))
  | [] =>
    match fs.origin file_id with
    | none => Except.error "origin"
    | some o => Except.ok [(file_id, { origin := o, marks := [fm] })]
  | (fid, mf) :: rest =>
    if file_id = fid then
      Except.ok ((fid, { mf with marks := mf.marks ++ [fm] }) :: rest)
    else
      match add_mark fs file_id fm rest with
      | Except.error e => Except.error e
      | Except.ok rest2 => Except.ok ((fid, mf) :: rest2)

/-- The per-label mark severity of views.rs: the diagnostic severity for a
Primary label and none for a Secondary one. -/
def label_severity {FileId : Type} (d : Diagnostic FileId) (label : Label FileId) :
    MarkSeverity :=
  match label.style with
  | LabelStyle.primary => some d.severity
  | LabelStyle.secondary => none

/-- The grouping loop of views.rs `RichDiagnostic::emit`: for each label,
resolve the start and end line indices (misses abort with "start_index" /
"end_index"), collect the spanned lines, and insert the mark grouped by
file. -/
def group_labels {FileId : Type} [DecidableEq FileId] (fs : FilesIntf FileId)
    (d : Diagnostic FileId) :
    List (Label FileId) → List (FileId × MarkedFile) → Nat →
    Except String (List (FileId × MarkedFile) × Nat)
  | [], mfs, pad => Except.ok (mfs, pad)
  | label :: rest, mfs, pad =>
    match fs.line_index label.file_id label.range.1 with
    | none => Except.error "start_index"
    | some start_line_index =>
      match fs.line_index label.file_id label.range.2 with
      | none => Except.error "end_index"
      | some end_line_index =>
        match collect_lines fs label.file_id (rangeIncl start_line_index end_line_index) pad with
        | Except.error e => Except.error e
        | Except.ok (lines, pad2) =>
          match add_mark fs label.file_id
              { severity := label_severity d label, lines := lines,
                range := label.range, message := label.message } mfs with
          | Except.error e => Except.error e
          | Except.ok mfs2 => group_labels fs d rest mfs2 pad2

/-- Lexicographic `(range.start, range.end)` key order used by the
`sort_by_key` call in views.rs. -/
def markKeyLe (a b : FileMark) : Bool :=
  a.range.1 < b.range.1 || (a.range.1 = b.range.1 && a.range.2 ≤ b.range.2)

/-- Stable insertion step: the new element goes before the first element
whose key is not smaller, preserving the original order of equal keys. -/
def insertMark (fm : FileMark) : List FileMark → List FileMark
  | [] => [fm]
  | x :: xs => if markKeyLe fm x then fm :: x :: xs else x :: insertMark fm xs

/-- The `marks.sort_by_key(|mark| (mark.range.start, mark.range.end))` call
of views.rs: `sort_by_key` is a stable sort, modelled as stable insertion
sort on the same key. -/
def sortMarks : List FileMark → List FileMark
  | [] => []
  | x :: xs => insertMark x (sortMarks xs)

/-- Rust `&s[..n]`: the first `n` bytes of the string when `n` falls on a
character boundary; slicing at any other index is a panic. -/
def slice_to (s : List Char) (n : Nat) : Option (List Char) :=
  if is_char_boundary s n then some (takeBytes s n) else none

/-- The per-mark snippet entries of views.rs `RichDiagnostic::emit`, paired
with the abort reason when the mark panics: no lines is skipped ("probably
a bug"); one line yields a `Single` underline; more lines slice the start
line's text before the mark — a panic ("slice") when the mark start is not
a character boundary — then yield the multi-line top (left-flush when that
prefix is all whitespace), the `MultiLeft` middles and the `MultiBottom`
end. -/
def render_mark (pad : Nat) (fm : FileMark) : List Entry × Option String :=
  match fm.lines with
  | [] => ([], none)
  | start_line :: remaining_lines =>
    match remaining_lines.getLast? with
    | none =>
      ([Entry.SourceLine pad start_line.number start_line.source
        [some (fm.severity, Mark.Single
          (fm.range.1 - start_line.start, fm.range.2 - start_line.start) fm.message)]],
       none)
    | some end_line =>
      match slice_to start_line.source (fm.range.1 - start_line.start) with
      | none => ([], some "slice")
      | some prefix_source =>
        ((if trimIsEmpty prefix_source then
            [Entry.SourceLine pad start_line.number start_line.source
              [some (fm.severity, Mark.MultiTopLeft)]]
          else
            [Entry.SourceLine pad start_line.number start_line.source
              [some (fm.severity, Mark.MultiTop (fm.range.1 - start_line.start))]])
          ++ remaining_lines.dropLast.map (fun l =>
              Entry.SourceLine pad l.number l.source
                [some (fm.severity, Mark.MultiLeft)])
          ++ [Entry.SourceLine pad end_line.number end_line.source
              [some (fm.severity, Mark.MultiBottom (fm.range.2 - end_line.start) fm.message)]],
         none)

/-- The per-file mark loop of views.rs: a `SourceEmpty` before the first
mark's entries and a `SourceBreak` before every later mark's; a mark's
panic stops the loop, keeping the entries already written. -/
def render_marks (pad : Nat) : Nat → List FileMark → List Entry × Option String
  | _, [] => ([], none)
  | i, fm :: rest =>
    match render_mark pad fm with
    | (es, some e) =>
      ((if i = 0 then Entry.SourceEmpty pad else Entry.SourceBreak pad) :: es, some e)
    | (es, none) =>
      match render_marks pad (i + 1) rest with
      | (es2, r) =>
        ((if i = 0 then Entry.SourceEmpty pad else Entry.SourceBreak pad)
          :: (es ++ es2), r)

/-- The per-file body of views.rs `RichDiagnostic::emit`: an empty marks list
skips the file; the locus comes from the first mark's first line (whose
absence is the `unwrap` panic); then `SourceStart`, the marks and — when no
mark panicked — a closing `SourceEmpty`. -/
def render_file (pad : Nat) (mf : MarkedFile) : List Entry × Option String :=
  match mf.marks with
  | [] => ([], none)
  | first_mark :: _ =>
    match first_mark.lines.head? with
    | none => ([], some "unwrap")
    | some first_line =>
      match render_marks pad 0 mf.marks with
      | (es, some e) =>
        (Entry.SourceStart pad
          { origin := mf.origin, line_number := first_line.number,
            column_number := first_line.column_number first_mark.range.1 }
          :: es, some e)
      | (es, none) =>
        (Entry.SourceStart pad
          { origin := mf.origin, line_number := first_line.number,
            column_number := first_line.column_number first_mark.range.1 }
          :: (es ++ [Entry.SourceEmpty pad]), none)

/-- The file loop of views.rs `RichDiagnostic::emit`: the files' entries in
order, stopping at the first abort and keeping what was already written. -/
def render_files (pad : Nat) : List (FileId × MarkedFile) → List Entry × Option String
  | [] => ([], none)
  | (_, mf) :: rest =>
    match render_file pad mf with
    | (es, some e) => (es, some e)
    | (es, none) =>
      match render_files pad rest with
      | (es2, r) => (es ++ es2, r)

/-- The grouping phase of views.rs `RichDiagnostic::emit` followed by the
per-file `sort_by_key` call: group the labels by file, then sort each
file's marks by `(range.start, range.end)`. -/
def group_and_sort {FileId : Type} [DecidableEq FileId] (fs : FilesIntf FileId)
    (d : Diagnostic FileId) :
    Except String (List (FileId × MarkedFile) × Nat) :=
  match group_labels fs d d.labels [] 0 with
  | Except.error e => Except.error e
  | Except.ok (mfs, pad) =>
    Except.ok (mfs.map (fun p => (p.1, { p.2 with marks := sortMarks p.2.marks })), pad)

/-- views.rs `RichDiagnostic::emit`, as the ordered entry sequence written to
the renderer paired with the abort reason when rendering stops early: group
and sort the labels per file (all source-table queries happen here, before
any entry is written), then the header, an `Empty` when any file is marked,
the file snippets, the notes and a final `Empty`. -/
def RichDiagnostic.emit {FileId : Type} [DecidableEq FileId] (fs : FilesIntf FileId)
    (d : Diagnostic FileId) : List Entry × Option String :=
  match group_and_sort fs d with
  | Except.error e => ([], some e)
  | Except.ok (marked_files, outer_padding) =>
    match render_files outer_padding marked_files with
    | (es, some e) =>
      ((Entry.Header none d.severity d.code d.message
        :: (if marked_files.isEmpty then [] else [Entry.Empty])) ++ es, some e)
    | (es, none) =>
      ((Entry.Header none d.severity d.code d.message
        :: (if marked_files.isEmpty then [] else [Entry.Empty])) ++ es
        ++ d.notes.map (fun n => Entry.SourceNote outer_padding n)
        ++ [Entry.Empty], none)

/-- The primary-label loop of views.rs `ShortDiagnostic::emit`: for each
label resolve origin, line index of the start byte and the line (misses
abort with "origin" / "line_index" / "line"), and emit one located header. -/
def short_go {FileId : Type} (fs : FilesIntf FileId) (d : Diagnostic FileId) :
    List (Label FileId) → List Entry × Option String
  | [] => ([], none)
  | label :: rest =>
    match fs.origin label.file_id with
    | none => ([], some "origin")
    | some origin =>
      match fs.line_index label.file_id label.range.1 with
      | none => ([], some "line_index")
      | some li =>
        match fs.line label.file_id li with
        | none => ([], some "line")
        | some line =>
          match short_go fs d rest with
          | (es, r) =>
            (Entry.Header
              (some { origin := origin, line_number := line.number,
                      column_number := line.column_number label.range.1 })
              d.severity d.code d.message :: es, r)

/-- The Primary labels of a diagnostic, in diagnostic order: the
`labels.iter().filter(...)` of views.rs `ShortDiagnostic::emit`. -/
def primary_labels {FileId : Type} (d : Diagnostic FileId) : List (Label FileId) :=
  d.labels.filter (fun l => l.style = LabelStyle.primary)

/-- views.rs `ShortDiagnostic::emit`: one located header per Primary label in
diagnostic order, and a single locus-free header when no Primary label was
encountered. -/
def ShortDiagnostic.emit {FileId : Type} (fs : FilesIntf FileId)
    (d : Diagnostic FileId) : List Entry × Option String :=
  match short_go fs d (primary_labels d) with
  | (es, some e) => (es, some e)
  | (es, none) =>
    if (primary_labels d).isEmpty then
      (es ++ [Entry.Header none d.severity d.code d.message], none)
    else
      (es, none)

/-- The `Files` capability of a `SimpleFile` as views.rs consumes it: the
line's source text is the byte slice of the file's source at the line's
range (files.rs slices `&file.source[line_range]`). -/
def SimpleFile.toIntf (f : SimpleFile) : FilesIntf Unit :=
  { origin := fun _ => some f.origin,
    line_index := fun _ b => f.line_index b,
    line := fun _ i =>
      (f.line_range i).map (fun r =>
        { start := r.1, number := i + 1,
          source := takeBytes (dropBytes f.source r.1) (r.2 - r.1) }) }

/-- The `Files` capability of a `SimpleFiles` database as views.rs consumes
it: every query delegates to the file with the given id. -/
def SimpleFiles.toIntf (fs : SimpleFiles) : FilesIntf Nat :=
  { origin := fun fid => (fs.get fid).map (fun f => f.origin),
    line_index := fun fid b => (fs.get fid).bind (fun f => f.line_index b),
    line := fun fid i => (fs.get fid).bind (fun f => (f.toIntf).line () i) }

/-! ### Facts about the byte-string model -/

theorem utf8Size_pos (c : Char) : 0 < c.utf8Size :=
  Char.utf8Size_pos c

theorem charIndicesFrom_fst_ge (k : Nat) (s : List Char) :
    ∀ p ∈ charIndicesFrom k s, k ≤ p.1 := by
  induction s generalizing k with
  | nil => intro p hp; simp [charIndicesFrom] at hp
  | cons c cs ih =>
    intro p hp
    simp only [charIndicesFrom, List.mem_cons] at hp
    rcases hp with rfl | hp
    · exact Nat.le_refl k
    · have := ih (k + c.utf8Size) p hp
      omega

theorem charIndicesFrom_pairwise (k : Nat) (s : List Char) :
    (charIndicesFrom k s).Pairwise (fun p q => p.1 < q.1) := by
  induction s generalizing k with
  | nil => simp [charIndicesFrom]
  | cons c cs ih =>
    simp only [charIndicesFrom, List.pairwise_cons]
    refine ⟨fun q hq => ?_, ih _⟩
    have h1 := charIndicesFrom_fst_ge (k + c.utf8Size) cs q hq
    have h2 := utf8Size_pos c
    omega

theorem charIndicesFrom_fst_add_le (k : Nat) (s : List Char) :
    ∀ p ∈ charIndicesFrom k s, p.1 + p.2.utf8Size ≤ k + utf8Len s := by
  induction s generalizing k with
  | nil => intro p hp; simp [charIndicesFrom] at hp
  | cons c cs ih =>
    intro p hp
    simp only [charIndicesFrom, List.mem_cons] at hp
    simp only [utf8Len, List.map_cons, List.sum_cons]
    rcases hp with rfl | hp
    · simp only [utf8Len] at *
      omega
    · have := ih (k + c.utf8Size) p hp
      simp only [utf8Len] at this ⊢
      omega

theorem charIndices_pairwise (s : List Char) :
    (charIndices s).Pairwise (fun p q => p.1 < q.1) :=
  charIndicesFrom_pairwise 0 s

theorem charIndices_fst_add_le (s : List Char) :
    ∀ p ∈ charIndices s, p.1 + p.2.utf8Size ≤ utf8Len s := by
  intro p hp
  have := charIndicesFrom_fst_add_le 0 s p hp
  omega

theorem charIndices_fst_lt_len (s : List Char) :
    ∀ p ∈ charIndices s, p.1 < utf8Len s := by
  intro p hp
  have h1 := charIndices_fst_add_le s p hp
  have h2 := utf8Size_pos p.2
  omega

theorem charIndices_zero_mem (c : Char) (cs : List Char) :
    (0, c) ∈ charIndices (c :: cs) := by
  simp [charIndices, charIndicesFrom]

/-- The first line start is 0. -/
theorem line_starts_zero (source : List Char) :
    (line_starts source).get? 0 = some 0 := rfl

theorem line_starts_length_pos (source : List Char) :
    0 < (line_starts source).length := by
  simp [line_starts]

/-- Every line start is at most the byte length of the source. -/
theorem line_starts_le_len (source : List Char) :
    ∀ x ∈ line_starts source, x ≤ utf8Len source := by
  intro x hx
  simp only [line_starts, List.mem_cons, List.mem_filterMap] at hx
  rcases hx with rfl | ⟨p, hp, hpx⟩
  · exact Nat.zero_le _
  · split at hpx
    · cases hpx
      have h1 := charIndices_fst_add_le source p hp
      have h2 : p.2.utf8Size = 1 := by
        rename_i hnl
        rw [hnl]
        rfl
      omega
    · cases hpx

/-- The cached line starts are strictly increasing. -/
theorem line_starts_pairwise (source : List Char) :
    (line_starts source).Pairwise (· < ·) := by
  simp only [line_starts, List.pairwise_cons]
  constructor
  · intro a ha
    simp only [List.mem_filterMap] at ha
    obtain ⟨p, _, hpa⟩ := ha
    split at hpa
    · cases hpa; omega
    · cases hpa
  · have h := charIndices_pairwise source
    have := List.Pairwise.filterMap
      (f := fun p : Nat × Char => if p.2 = '\n' then some (p.1 + 1) else none)
      (R := fun p q : Nat × Char => p.1 < q.1) (S := (· < ·)) ?_ h
    · exact this
    · intro p q hpq a ha b hb
      simp only [Option.mem_def] at ha hb
      split at ha <;> cases ha
      split at hb <;> cases hb
      omega

/-! ### The binary search over line starts, characterized by counting -/

theorem findIdx_eq_of_mem (xs : List Nat) (x : Nat) (hps : xs.Pairwise (· < ·))
    (hm : x ∈ xs) (i : Nat) :
    List.findIdx? (fun y => y == x) xs i
      = some (i + xs.countP (fun y => decide (y < x))) := by
  induction xs generalizing i with
  | nil => cases hm
  | cons a t ih =>
    rw [List.findIdx?_cons]
    rcases List.pairwise_cons.mp hps with ⟨ha, hpt⟩
    by_cases hax : a = x
    · subst hax
      have ht : t.countP (fun y => decide (y < a)) = 0 := by
        rw [List.countP_eq_zero]
        intro y hy
        have := ha y hy
        simp
        omega
      simp [List.countP_cons, ht]
    · have hxt : x ∈ t := by
        rcases List.mem_cons.mp hm with h | h
        · exact absurd h.symm hax
        · exact h
      have hax2 : a < x := ha x hxt
      rw [if_neg (by simp [hax])]
      rw [ih hpt hxt]
      rw [List.countP_cons]
      rw [if_pos (by simp [hax2])]
      congr 1
      omega

theorem binary_search_of_mem (xs : List Nat) (x : Nat) (hps : xs.Pairwise (· < ·))
    (hm : x ∈ xs) :
    binary_search xs x = Except.ok (xs.countP (fun y => decide (y < x))) := by
  unfold binary_search
  have : xs.indexOf? x = some (xs.countP (fun y => decide (y < x))) := by
    have := findIdx_eq_of_mem xs x hps hm 0
    simpa [List.indexOf?] using this
  rw [this]

theorem binary_search_of_not_mem (xs : List Nat) (x : Nat) (hm : x ∉ xs) :
    binary_search xs x = Except.error (xs.countP (fun y => decide (y < x))) := by
  unfold binary_search
  have : xs.indexOf? x = none := by
    simp only [List.indexOf?, List.findIdx?_eq_none_iff]
    intro y hy
    simp only [beq_eq_false_iff_ne, ne_eq]
    intro h
    exact hm (h ▸ hy)
  rw [this]

theorem countP_le_succ_of_mem (xs : List Nat) (x : Nat) (hps : xs.Pairwise (· < ·))
    (hm : x ∈ xs) :
    xs.countP (fun y => decide (y ≤ x)) = xs.countP (fun y => decide (y < x)) + 1 := by
  induction xs with
  | nil => cases hm
  | cons a t ih =>
    rcases List.pairwise_cons.mp hps with ⟨ha, hpt⟩
    by_cases hax : a = x
    · subst hax
      have h1 : t.countP (fun y => decide (y ≤ a)) = 0 := by
        rw [List.countP_eq_zero]
        intro y hy
        have := ha y hy
        simp
        omega
      have h2 : t.countP (fun y => decide (y < a)) = 0 := by
        rw [List.countP_eq_zero]
        intro y hy
        have := ha y hy
        simp
        omega
      simp [List.countP_cons, h1, h2]
    · have hxt : x ∈ t := by
        rcases List.mem_cons.mp hm with h | h
        · exact absurd h.symm hax
        · exact h
      have hax2 : a < x := ha x hxt
      rw [List.countP_cons, List.countP_cons, ih hpt hxt]
      rw [if_pos (by simp; omega), if_pos (by simp [hax2])]

theorem countP_le_eq_of_not_mem (xs : List Nat) (x : Nat) (hm : x ∉ xs) :
    xs.countP (fun y => decide (y ≤ x)) = xs.countP (fun y => decide (y < x)) := by
  apply List.countP_congr
  intro y hy
  have : y ≠ x := fun h => hm (h ▸ hy)
  simp
  omega

/-- `SimpleFile::line_index` always answers with the count of line starts at
most the byte index, minus one. -/
theorem line_index_eq_countP (f : SimpleFile) (hps : f.lineStarts.Pairwise (· < ·))
    (b : Nat) :
    f.line_index b = some (f.lineStarts.countP (fun y => decide (y ≤ b)) - 1) := by
  unfold SimpleFile.line_index
  by_cases hm : b ∈ f.lineStarts
  · rw [binary_search_of_mem _ _ hps hm]
    rw [countP_le_succ_of_mem _ _ hps hm]
    simp
  · rw [binary_search_of_not_mem _ _ hm]
    rw [countP_le_eq_of_not_mem _ _ hm]

/-- In a strictly increasing list, the elements at most `b` are exactly the
first `countP (· ≤ b)` ones. -/
theorem get_le_iff_lt_countP (xs : List Nat) (hps : xs.Pairwise (· < ·)) (b : Nat)
    (j : Nat) (hj : j < xs.length) :
    xs.get ⟨j, hj⟩ ≤ b ↔ j < xs.countP (fun y => decide (y ≤ b)) := by
  induction xs generalizing j with
  | nil => simp at hj
  | cons a t ih =>
    rcases List.pairwise_cons.mp hps with ⟨ha, hpt⟩
    rw [List.countP_cons]
    match j with
    | 0 =>
      simp only [List.get]
      by_cases hab : a ≤ b
      · simp [hab]
      · have h0 : t.countP (fun y => decide (y ≤ b)) = 0 := by
          rw [List.countP_eq_zero]
          intro y hy
          have := ha y hy
          simp
          omega
        simp [hab, h0]
    | j + 1 =>
      simp only [List.get]
      have hj2 : j < t.length := by simpa using hj
      rw [ih hpt j hj2]
      by_cases hab : a ≤ b
      · simp [hab]
      · have h0 : t.countP (fun y => decide (y ≤ b)) = 0 := by
          rw [List.countP_eq_zero]
          intro y hy
          have := ha y hy
          simp
          omega
        simp [hab, h0]

theorem line_starts_get_zero (source : List Char) (h : 0 < (line_starts source).length) :
    (line_starts source).get ⟨0, h⟩ = 0 := rfl

theorem zero_mem_line_starts (source : List Char) : 0 ∈ line_starts source :=
  List.mem_cons_self 0 _

/-- `SimpleFile::line_index` on a constructed file, as the greatest line
index whose start is at most the byte index. -/
theorem line_index_new_eq (origin : String) (source : List Char) (b : Nat) :
    (SimpleFile.new origin source).line_index b
      = some ((line_starts source).countP (fun y => decide (y ≤ b)) - 1) :=
  line_index_eq_countP _ (line_starts_pairwise source) b

/-- C1: for a `SimpleFile` and a byte offset `b ≤ len(source)`, `line_index`
answers a line whose half-open range contains `b` when `b < len(source)`,
and the final line when `b = len(source)`; an exact match on a line-start
offset selects that line, and otherwise the selected line is the one of the
greatest line-start offset at most `b`. -/
theorem c1_line_index_resolves (origin : String) (source : List Char) (b : Nat)
    (hb : b ≤ utf8Len source) :
    ∃ i, (SimpleFile.new origin source).line_index b = some i ∧
      i < (line_starts source).length ∧
      (∃ line : FileLine, (SimpleFile.new origin source).line i = some line ∧
        line.number = i + 1 ∧
        (b < utf8Len source → line.range.1 ≤ b ∧ b < line.range.2)) ∧
      (b = utf8Len source → i = (line_starts source).length - 1) ∧
      (∀ j (hj : j < (line_starts source).length),
        (line_starts source).get ⟨j, hj⟩ = b → i = j) ∧
      (∀ j (hj : j < (line_starts source).length),
        (line_starts source).get ⟨j, hj⟩ ≤ b → j ≤ i) := by
  have hps := line_starts_pairwise source
  have hlenpos := line_starts_length_pos source
  set xs := line_starts source with hxs
  set c := xs.countP (fun y => decide (y ≤ b)) with hc
  have hc1 : 1 ≤ c := by
    rw [hc]
    rw [Nat.succ_le_iff]
    rw [List.countP_pos]
    exact ⟨0, zero_mem_line_starts source, by simp⟩
  have hcle : c ≤ xs.length := List.countP_le_length _
  have hi_lt : c - 1 < xs.length := by omega
  refine ⟨c - 1, line_index_new_eq origin source b, hi_lt, ?_, ?_, ?_, ?_⟩
  · -- the line exists and contains b
    have hstart : (SimpleFile.new origin source).line_start (c - 1)
        = some (xs.get ⟨c - 1, hi_lt⟩) := by
      unfold SimpleFile.line_start
      have e1 : (SimpleFile.new origin source).lineStarts = xs := rfl
      rw [e1, if_pos hi_lt]
      exact List.get?_eq_get hi_lt
    have hget_le : xs.get ⟨c - 1, hi_lt⟩ ≤ b := by
      rw [get_le_iff_lt_countP xs hps b (c - 1) hi_lt]
      omega
    by_cases hnext : c < xs.length
    · have hnext_gt : b < xs.get ⟨c, hnext⟩ := by
        by_contra hcon
        have := (get_le_iff_lt_countP xs hps b c hnext).mp (by omega)
        omega
      have hstart2 : (SimpleFile.new origin source).line_start (c - 1 + 1)
          = some (xs.get ⟨c, hnext⟩) := by
        unfold SimpleFile.line_start
        have e1 : (SimpleFile.new origin source).lineStarts = xs := rfl
        have : c - 1 + 1 = c := by omega
        rw [e1, this, if_pos hnext]
        exact List.get?_eq_get hnext
      refine ⟨⟨c - 1 + 1, (xs.get ⟨c - 1, hi_lt⟩, xs.get ⟨c, hnext⟩)⟩, ?_, rfl, ?_⟩
      · unfold SimpleFile.line SimpleFile.line_range
        rw [hstart, hstart2]
        rfl
      · intro _
        exact ⟨hget_le, hnext_gt⟩
    · have hceq : c = xs.length := by omega
      have hstart2 : (SimpleFile.new origin source).line_start (c - 1 + 1)
          = some (utf8Len source) := by
        unfold SimpleFile.line_start
        have e1 : (SimpleFile.new origin source).lineStarts = xs := rfl
        have e2 : (SimpleFile.new origin source).source = source := rfl
        have h1 : c - 1 + 1 = xs.length := by omega
        rw [e1, e2, h1]
        rw [if_neg (by omega), if_pos rfl]
      refine ⟨⟨c - 1 + 1, (xs.get ⟨c - 1, hi_lt⟩, utf8Len source)⟩, ?_, rfl, ?_⟩
      · unfold SimpleFile.line SimpleFile.line_range
        rw [hstart, hstart2]
        rfl
      · intro hblt
        exact ⟨hget_le, hblt⟩
  · -- b = len selects the final line
    intro hbeq
    have : c = xs.length := by
      rw [hc, List.countP_eq_length]
      intro a ha
      have := line_starts_le_len source a ha
      simp
      omega
    omega
  · -- an exact match on a line start selects that line
    intro j hj hget
    have hj_le : j ≤ c - 1 := by
      have := (get_le_iff_lt_countP xs hps b j hj).mp (le_of_eq hget)
      omega
    rcases Nat.lt_or_ge j (c - 1) with hlt | hge
    · exfalso
      have hmono := List.pairwise_iff_get.mp hps ⟨j, hj⟩ ⟨c - 1, hi_lt⟩ hlt
      have hget_le : xs.get ⟨c - 1, hi_lt⟩ ≤ b := by
        rw [get_le_iff_lt_countP xs hps b (c - 1) hi_lt]
        omega
      omega
    · omega
  · -- any line start at most b lies at or before the selected line
    intro j hj hget
    have := (get_le_iff_lt_countP xs hps b j hj).mp hget
    omega

/-- C1 witness. -/
theorem c1_line_index_resolves_witness :
    (5 : Nat) ≤ utf8Len ("foo\nbar\n".toList) ∧
    (∃ i, (SimpleFile.new "t" ("foo\nbar\n".toList)).line_index 5 = some i ∧
      i < (line_starts ("foo\nbar\n".toList)).length ∧
      (∃ line : FileLine, (SimpleFile.new "t" ("foo\nbar\n".toList)).line i = some line ∧
        line.number = i + 1 ∧
        (5 < utf8Len ("foo\nbar\n".toList) → line.range.1 ≤ 5 ∧ 5 < line.range.2)) ∧
      ((5 : Nat) = utf8Len ("foo\nbar\n".toList) →
        i = (line_starts ("foo\nbar\n".toList)).length - 1) ∧
      (∀ j (hj : j < (line_starts ("foo\nbar\n".toList)).length),
        (line_starts ("foo\nbar\n".toList)).get ⟨j, hj⟩ = 5 → i = j) ∧
      (∀ j (hj : j < (line_starts ("foo\nbar\n".toList)).length),
        (line_starts ("foo\nbar\n".toList)).get ⟨j, hj⟩ ≤ 5 → j ≤ i)) :=
  ⟨by decide, c1_line_index_resolves "t" ("foo\nbar\n".toList) 5 (by decide)⟩

/-- C4: `column_index` counts Unicode scalar values before the relative byte
index; for the line text `🗻∈🌏` (character byte lengths 4, 3, 4) with
`line_start = 2`, the byte indices 2, 3, 6, 10 and 13 give columns 0, 0, 1,
2 and 3, a byte index strictly inside a multi-byte character being
attributed to the preceding character boundary. -/
theorem c4_column_index_unicode :
    Char.utf8Size '🗻' = 4 ∧ Char.utf8Size '∈' = 3 ∧ Char.utf8Size '🌏' = 4 ∧
    column_index ['🗻', '∈', '🌏'] 2 2 = 0 ∧
    column_index ['🗻', '∈', '🌏'] 2 3 = 0 ∧
    column_index ['🗻', '∈', '🌏'] 2 6 = 1 ∧
    column_index ['🗻', '∈', '🌏'] 2 10 = 2 ∧
    column_index ['🗻', '∈', '🌏'] 2 13 = 3 := by
  decide

/-- C10: `SimpleFile::line_index` answers `Some` for every byte index, also
past the end of the source, where it resolves to the final line index; a
`SimpleFiles` database answers likewise for every known file id, so an
out-of-range byte offset can never fail this query. -/
theorem c10_line_index_total :
    (∀ (f : SimpleFile) (b : Nat), ∃ i, f.line_index b = some i) ∧
    (∀ (origin : String) (source : List Char) (b : Nat), utf8Len source ≤ b →
      (SimpleFile.new origin source).line_index b
        = some ((line_starts source).length - 1)) ∧
    (∀ (fs : SimpleFiles) (fid b : Nat), fid < fs.files.length →
      ∃ i, fs.line_index fid b = some i) := by
  refine ⟨?_, ?_, ?_⟩
  · intro f b
    unfold SimpleFile.line_index
    cases binary_search f.lineStarts b with
    | ok i => exact ⟨i, rfl⟩
    | error n => exact ⟨n - 1, rfl⟩
  · intro origin source b hb
    rw [line_index_new_eq]
    have : (line_starts source).countP (fun y => decide (y ≤ b))
        = (line_starts source).length := by
      rw [List.countP_eq_length]
      intro a ha
      have := line_starts_le_len source a ha
      simp
      omega
    rw [this]
  · intro fs fid b hfid
    unfold SimpleFiles.line_index SimpleFiles.get
    rw [List.get?_eq_get hfid]
    show ∃ i, (fs.files.get ⟨fid, hfid⟩).line_index b = some i
    unfold SimpleFile.line_index
    cases binary_search (fs.files.get ⟨fid, hfid⟩).lineStarts b with
    | ok i => exact ⟨i, rfl⟩
    | error n => exact ⟨n - 1, rfl⟩

/-- C10 witness. -/
theorem c10_line_index_total_witness :
    utf8Len ("foo\nbar\n".toList) ≤ 99 ∧
    (SimpleFile.new "t" ("foo\nbar\n".toList)).line_index 99
      = some ((line_starts ("foo\nbar\n".toList)).length - 1) ∧
    (0 : Nat) < (SimpleFiles.mk [SimpleFile.new "t" ("foo\nbar\n".toList)]).files.length ∧
    ∃ i, (SimpleFiles.mk [SimpleFile.new "t" ("foo\nbar\n".toList)]).line_index 0 99 = some i :=
  ⟨by decide,
   c10_line_index_total.2.1 "t" ("foo\nbar\n".toList) 99 (by decide),
   by decide,
   c10_line_index_total.2.2 (SimpleFiles.mk [SimpleFile.new "t" ("foo\nbar\n".toList)]) 0 99
     (by decide)⟩

/-! ### Monotonicity of column_index -/

theorem starts_pairwise (s : List Char) :
    ((charIndices s).map Prod.fst).Pairwise (· < ·) := by
  rw [List.pairwise_map]
  exact charIndices_pairwise s

theorem takeWhile_lt_length_eq_countP (xs : List Nat) (hps : xs.Pairwise (· < ·))
    (r : Nat) :
    (xs.takeWhile (fun i => decide (i < r))).length
      = xs.countP (fun i => decide (i < r)) := by
  induction xs with
  | nil => rfl
  | cons a t ih =>
    rcases List.pairwise_cons.mp hps with ⟨ha, hpt⟩
    by_cases har : a < r
    · rw [List.takeWhile_cons, if_pos (by simpa using har), List.countP_cons,
        if_pos (by simpa using har)]
      simp [ih hpt]
    · rw [List.takeWhile_cons, if_neg (by simpa using har), List.countP_cons,
        if_neg (by simpa using har)]
      have h0 : t.countP (fun i => decide (i < r)) = 0 := by
        rw [List.countP_eq_zero]
        intro y hy
        have := ha y hy
        simp
        omega
      simp [h0]

theorem countP_lt_lt_of_mem (xs : List Nat) (x : Nat) (hm : x ∈ xs) (r1 r2 : Nat)
    (h1 : ¬ x < r1) (h2 : x < r2) :
    xs.countP (fun i => decide (i < r1)) < xs.countP (fun i => decide (i < r2)) := by
  induction xs with
  | nil => cases hm
  | cons a t ih =>
    have hmono : t.countP (fun i => decide (i < r1)) ≤ t.countP (fun i => decide (i < r2)) := by
      apply List.countP_mono_left
      intro y _ hy
      simp at hy ⊢
      omega
    rw [List.countP_cons, List.countP_cons]
    rcases List.mem_cons.mp hm with rfl | hmt
    · rw [if_neg (by simpa using h1), if_pos (by simpa using h2)]
      omega
    · have := ih hmt
      by_cases har : a < r1
      · rw [if_pos (by simpa using har), if_pos (by simp; omega)]
        omega
      · rw [if_neg (by simpa using har)]
        split
        all_goals omega

theorem mem_starts_of_boundary (s : List Char) (r : Nat)
    (hb : is_char_boundary s r = true) (hr : r < utf8Len s) :
    r ∈ (charIndices s).map Prod.fst := by
  unfold is_char_boundary at hb
  simp only [Bool.or_eq_true, beq_iff_eq, List.any_eq_true] at hb
  rcases hb with (rfl | hlen) | ⟨p, hp, hpr⟩
  · cases s with
    | nil => simp [utf8Len] at hr
    | cons c cs =>
      exact List.mem_map.mpr ⟨(0, c), charIndices_zero_mem c cs, rfl⟩
  · omega
  · exact List.mem_map.mpr ⟨p, hp, hpr⟩

/-- `column_index` past the line start, with the let bindings spelled out. -/
theorem column_index_eq (s : List Char) (start b : Nat) (h : ¬ b < start) :
    column_index s start b =
      if utf8Len s ≤ b - start then
        (((charIndices s).map Prod.fst).takeWhile (fun i => decide (i < b - start))).length
      else if is_char_boundary s (b - start) then
        (((charIndices s).map Prod.fst).takeWhile (fun i => decide (i < b - start))).length
      else
        (((charIndices s).map Prod.fst).takeWhile (fun i => decide (i < b - start))).length
          - 1 := by
  unfold column_index
  rw [if_neg h]

/-- C7: `column_index` at the line start itself is 0, and `column_index` is
monotone non-decreasing in the byte index for a fixed line text and line
start. -/
theorem c7_column_index_monotone :
    (∀ (line_source : List Char) (line_start : Nat),
      column_index line_source line_start line_start = 0) ∧
    (∀ (line_source : List Char) (line_start b1 b2 : Nat), b1 ≤ b2 →
      column_index line_source line_start b1 ≤ column_index line_source line_start b2) := by
  constructor
  · intro s start
    rw [column_index_eq s start start (by omega)]
    simp only [Nat.sub_self]
    have h0 : (((charIndices s).map Prod.fst).takeWhile (fun i => decide (i < 0))).length
        = 0 := by
      cases hs : (charIndices s).map Prod.fst with
      | nil => simp
      | cons a t => simp [List.takeWhile_cons]
    rw [h0]
    by_cases hlen : utf8Len s ≤ 0
    · rw [if_pos hlen]
    · rw [if_neg hlen, if_pos (by simp [is_char_boundary])]
  · intro s start b1 b2 hb
    by_cases hb1 : b1 < start
    · unfold column_index
      rw [if_pos hb1]
      exact Nat.zero_le _
    · have hb2 : ¬ b2 < start := by omega
      rw [column_index_eq s start b1 hb1, column_index_eq s start b2 hb2]
      set r1 := b1 - start with hr1
      set r2 := b2 - start with hr2
      have hr12 : r1 ≤ r2 := by omega
      have hps := starts_pairwise s
      rw [takeWhile_lt_length_eq_countP _ hps r1,
        takeWhile_lt_length_eq_countP _ hps r2]
      set c1 := ((charIndices s).map Prod.fst).countP (fun i => decide (i < r1)) with hc1
      set c2 := ((charIndices s).map Prod.fst).countP (fun i => decide (i < r2)) with hc2
      have hmono : c1 ≤ c2 := by
        rw [hc1, hc2]
        apply List.countP_mono_left
        intro y _ hy
        simp at hy ⊢
        omega
      by_cases hlen1 : utf8Len s ≤ r1
      · rw [if_pos hlen1, if_pos (by omega)]
        exact hmono
      · rw [if_neg hlen1]
        by_cases hbd1 : is_char_boundary s r1
        · rw [if_pos hbd1]
          by_cases hlen2 : utf8Len s ≤ r2
          · rw [if_pos hlen2]
            exact hmono
          · rw [if_neg hlen2]
            by_cases hbd2 : is_char_boundary s r2
            · rw [if_pos hbd2]
              exact hmono
            · rw [if_neg hbd2]
              have hne : r1 ≠ r2 := by
                intro h
                rw [h] at hbd1
                exact hbd2 hbd1
              have hmem := mem_starts_of_boundary s r1 hbd1 (by omega)
              have := countP_lt_lt_of_mem _ r1 hmem r1 r2 (by omega) (by omega)
              omega
        · rw [if_neg hbd1]
          by_cases hlen2 : utf8Len s ≤ r2
          · rw [if_pos hlen2]
            omega
          · rw [if_neg hlen2]
            by_cases hbd2 : is_char_boundary s r2
            · rw [if_pos hbd2]
              omega
            · rw [if_neg hbd2]
              omega

/-- C7 witness. -/
theorem c7_column_index_monotone_witness :
    (3 : Nat) ≤ 9 ∧
    column_index ['🗻', '∈', '🌏'] 2 2 = 0 ∧
    column_index ['🗻', '∈', '🌏'] 2 3 ≤ column_index ['🗻', '∈', '🌏'] 2 9 :=
  ⟨by omega, c7_column_index_monotone.1 ['🗻', '∈', '🌏'] 2,
   c7_column_index_monotone.2 ['🗻', '∈', '🌏'] 2 3 9 (by omega)⟩

/-! ### Short-form mode -/

/-- An entry is a header. -/
def entry_is_header : Entry → Bool
  | Entry.Header _ _ _ _ => true
  | _ => false

/-- The located header emitted for one label in short mode, given the
resolved origin and line. -/
def short_header {FileId : Type} (d : Diagnostic FileId) (origin : String)
    (line : ViewLine) (l : Label FileId) : Entry :=
  Entry.Header
    (some { origin := origin, line_number := line.number,
            column_number := line.column_number l.range.1 })
    d.severity d.code d.message

theorem short_go_ok {FileId : Type} (fs : FilesIntf FileId) (d : Diagnostic FileId)
    (ls : List (Label FileId)) (es : List Entry)
    (h : short_go fs d ls = (es, none)) :
    es.length = ls.length ∧
    ∀ k (hk : k < ls.length),
      ∃ origin li line,
        fs.origin (ls.get ⟨k, hk⟩).file_id = some origin ∧
        fs.line_index (ls.get ⟨k, hk⟩).file_id (ls.get ⟨k, hk⟩).range.1 = some li ∧
        fs.line (ls.get ⟨k, hk⟩).file_id li = some line ∧
        es.get? k = some (short_header d origin line (ls.get ⟨k, hk⟩)) := by
  induction ls generalizing es with
  | nil =>
    unfold short_go at h
    cases h
    exact ⟨rfl, fun k hk => absurd hk (by simp)⟩
  | cons l rest ih =>
    unfold short_go at h
    split at h
    · simp at h
    rename_i origin horigin
    split at h
    · simp at h
    rename_i li hli
    split at h
    · simp at h
    rename_i line hline
    split at h
    rename_i es2 r hrest
    rw [Prod.mk.injEq] at h
    rcases h with ⟨rfl, hr⟩
    rcases ih es2 (by rw [hrest, ← hr]) with ⟨hlen, hget⟩
    refine ⟨by simp [hlen], ?_⟩
    intro k hk
    match k with
    | 0 => exact ⟨origin, li, line, horigin, hli, hline, rfl⟩
    | k + 1 =>
      have hk2 : k < rest.length := by simpa using hk
      rcases hget k hk2 with ⟨o2, li2, line2, h1, h2, h3, h4⟩
      exact ⟨o2, li2, line2, h1, h2, h3, by simpa using h4⟩

theorem short_go_headers {FileId : Type} (fs : FilesIntf FileId) (d : Diagnostic FileId)
    (ls : List (Label FileId)) :
    ∀ e ∈ (short_go fs d ls).1, entry_is_header e = true := by
  induction ls with
  | nil => intro e he; simp [short_go] at he
  | cons l rest ih =>
    intro e he
    unfold short_go at he
    split at he
    · simp at he
    rename_i origin horigin
    split at he
    · simp at he
    rename_i li hli
    split at he
    · simp at he
    rename_i line hline
    split at he
    rename_i es2 r hrest
    simp only [List.mem_cons] at he
    rcases he with rfl | he
    · rfl
    · exact ih e (by rw [hrest]; exact he)

/-- C8: short-form rendering emits one located `Header` per Primary label in
diagnostic order, whose locus is resolved from the label's start byte; with
zero Primary labels it emits exactly one locus-free `Header`; and every
entry it produces is a `Header` (no source lines). -/
theorem c8_short_mode {FileId : Type} (fs : FilesIntf FileId) (d : Diagnostic FileId)
    (es : List Entry)
    (h : ShortDiagnostic.emit fs d = (es, none)) :
    (primary_labels d = [] → es = [Entry.Header none d.severity d.code d.message]) ∧
    (primary_labels d ≠ [] →
        es.length = (primary_labels d).length ∧
        ∀ k (hk : k < (primary_labels d).length),
          ∃ origin li line,
            fs.origin ((primary_labels d).get ⟨k, hk⟩).file_id = some origin ∧
            fs.line_index ((primary_labels d).get ⟨k, hk⟩).file_id
              ((primary_labels d).get ⟨k, hk⟩).range.1 = some li ∧
            fs.line ((primary_labels d).get ⟨k, hk⟩).file_id li = some line ∧
            es.get? k = some (short_header d origin line
              ((primary_labels d).get ⟨k, hk⟩))) ∧
    (∀ e ∈ es, entry_is_header e = true) := by
  unfold ShortDiagnostic.emit at h
  split at h
  · simp at h
  rename_i es0 hgo
  split at h
  · -- no Primary label: the fallback header
    rename_i hemp
    rw [Prod.mk.injEq] at h
    rcases h with ⟨rfl, -⟩
    have hnil : primary_labels d = [] := List.isEmpty_iff.mp hemp
    rcases short_go_ok fs d _ es0 hgo with ⟨hlen, -⟩
    have hes0 : es0 = [] := by
      rw [hnil] at hlen
      exact List.eq_nil_of_length_eq_zero (by simpa using hlen)
    subst hes0
    refine ⟨fun _ => rfl, fun hne => absurd hnil hne, ?_⟩
    intro e he
    simp only [List.nil_append, List.mem_singleton] at he
    subst he
    rfl
  · rename_i hemp
    rw [Prod.mk.injEq] at h
    rcases h with ⟨rfl, -⟩
    rcases short_go_ok fs d _ es0 hgo with ⟨hlen, hget⟩
    refine ⟨fun hnil => absurd (List.isEmpty_iff.mpr hnil) hemp,
      fun _ => ⟨hlen, hget⟩, ?_⟩
    intro e he
    exact short_go_headers fs d _ e (by rw [hgo]; exact he)

/-- The concrete short-mode example used by the C8 witness. -/
def shortExFile : SimpleFile := SimpleFile.new "t" ("foo\nbar\n".toList)

/-- The concrete diagnostic used by the C8 witness. -/
def shortExDiag : Diagnostic Unit :=
  { severity := Severity.error, code := none, message := "m",
    labels := [{ style := LabelStyle.primary, file_id := (), range := (4, 7),
                 message := "oops" }],
    notes := [] }

/-- The header the C8 witness expects. -/
def shortExHeader : Entry :=
  Entry.Header (some { origin := "t", line_number := 2, column_number := 1 })
    Severity.error none "m"

/-- C8 witness: one Primary label on a concrete file. -/
theorem c8_short_mode_witness :
    (primary_labels shortExDiag = [] →
      [shortExHeader] = [Entry.Header none shortExDiag.severity shortExDiag.code
        shortExDiag.message]) ∧
    (primary_labels shortExDiag ≠ [] →
        [shortExHeader].length = (primary_labels shortExDiag).length ∧
        ∀ k (hk : k < (primary_labels shortExDiag).length),
          ∃ origin li line,
            shortExFile.toIntf.origin
              ((primary_labels shortExDiag).get ⟨k, hk⟩).file_id = some origin ∧
            shortExFile.toIntf.line_index
              ((primary_labels shortExDiag).get ⟨k, hk⟩).file_id
              ((primary_labels shortExDiag).get ⟨k, hk⟩).range.1 = some li ∧
            shortExFile.toIntf.line
              ((primary_labels shortExDiag).get ⟨k, hk⟩).file_id li = some line ∧
            [shortExHeader].get? k = some (short_header shortExDiag origin line
              ((primary_labels shortExDiag).get ⟨k, hk⟩))) ∧
    (∀ e ∈ [shortExHeader], entry_is_header e = true) :=
  c8_short_mode shortExFile.toIntf shortExDiag [shortExHeader] (by decide)


/-! ### Failure semantics -/

/-- All three source-table queries short mode makes for one label succeed. -/
def short_label_ok {FileId : Type} (fs : FilesIntf FileId) (l : Label FileId) : Bool :=
  match fs.origin l.file_id with
  | none => false
  | some _ =>
    match fs.line_index l.file_id l.range.1 with
    | none => false
    | some li => (fs.line l.file_id li).isSome

theorem short_go_err {FileId : Type} (fs : FilesIntf FileId) (d : Diagnostic FileId)
    (ls : List (Label FileId)) (es : List Entry) (e : String)
    (h : short_go fs d ls = (es, some e)) :
    ∃ k, ∃ hk : k < ls.length, es.length = k ∧
      (∀ j (hj : j < ls.length), j < k → short_label_ok fs (ls.get ⟨j, hj⟩) = true) ∧
      short_label_ok fs (ls.get ⟨k, hk⟩) = false := by
  induction ls generalizing es with
  | nil =>
    unfold short_go at h
    cases h
  | cons l rest ih =>
    unfold short_go at h
    split at h
    · rename_i horigin
      rw [Prod.mk.injEq] at h
      rcases h with ⟨rfl, -⟩
      refine ⟨0, by simp, rfl, by omega, ?_⟩
      simp only [List.get, short_label_ok, horigin]
    rename_i origin horigin
    split at h
    · rename_i hli
      rw [Prod.mk.injEq] at h
      rcases h with ⟨rfl, -⟩
      refine ⟨0, by simp, rfl, by omega, ?_⟩
      simp only [List.get, short_label_ok, horigin, hli]
    rename_i li hli
    split at h
    · rename_i hline
      rw [Prod.mk.injEq] at h
      rcases h with ⟨rfl, -⟩
      refine ⟨0, by simp, rfl, by omega, ?_⟩
      simp only [List.get, short_label_ok, horigin, hli, hline, Option.isSome_none]
    rename_i line hline
    split at h
    rename_i es2 r hrest
    rw [Prod.mk.injEq] at h
    rcases h with ⟨rfl, hr⟩
    rcases ih es2 (by rw [hrest, ← hr]) with ⟨k, hk, hlen, hpre, hfail⟩
    refine ⟨k + 1, by simpa using hk, by simp [hlen], ?_, ?_⟩
    · intro j hj hjk
      match j with
      | 0 =>
        simp only [List.get, short_label_ok, horigin, hli, hline, Option.isSome_some]
      | j + 1 =>
        exact hpre j (by simpa using hj) (by omega)
    · exact hfail

theorem collect_lines_error_name {FileId : Type} (fs : FilesIntf FileId)
    (fid : FileId) (is : List Nat) (pad : Nat) (e : String)
    (h : collect_lines fs fid is pad = Except.error e) : e = "line" := by
  induction is generalizing pad with
  | nil => cases h
  | cons i rest ih =>
    unfold collect_lines at h
    split at h
    · cases h
      rfl
    · split at h
      · cases h
        rename_i heq
        exact ih _ heq
      · cases h

theorem add_mark_error_name {FileId : Type} [DecidableEq FileId] (fs : FilesIntf FileId)
    (fid : FileId) (fm : FileMark) (mfs : List (FileId × MarkedFile)) (e : String)
    (h : add_mark fs fid fm mfs = Except.error e) : e = "origin" := by
  induction mfs with
  | nil =>
    unfold add_mark at h
    split at h
    · cases h
      rfl
    · cases h
  | cons p rest ih =>
    unfold add_mark at h
    split at h
    · cases h
    · split at h
      · cases h
        rename_i heq
        exact ih heq
      · cases h

theorem group_labels_error_name {FileId : Type} [DecidableEq FileId]
    (fs : FilesIntf FileId) (d : Diagnostic FileId) (ls : List (Label FileId))
    (mfs : List (FileId × MarkedFile)) (pad : Nat) (e : String)
    (h : group_labels fs d ls mfs pad = Except.error e) :
    e = "start_index" ∨ e = "end_index" ∨ e = "line" ∨ e = "origin" := by
  induction ls generalizing mfs pad with
  | nil => cases h
  | cons l rest ih =>
    unfold group_labels at h
    split at h
    · cases h
      exact Or.inl rfl
    split at h
    · cases h
      exact Or.inr (Or.inl rfl)
    split at h
    · cases h
      rename_i heq
      exact Or.inr (Or.inr (Or.inl (collect_lines_error_name fs _ _ _ _ heq)))
    split at h
    · cases h
      rename_i heq
      exact Or.inr (Or.inr (Or.inr (add_mark_error_name fs _ _ _ _ heq)))
    exact ih _ _ h

/-- C9: a source-table query failure aborts rendering at once. In rich mode
all queries happen during grouping, before any entry is written, so a
grouping failure — always one of the four query misses — yields an empty
entry list; in short mode the entries are exactly the headers of the
Primary labels before the first label with a failing query. -/
theorem c9_resolution_abort :
    (∀ {FileId : Type} [DecidableEq FileId] (fs : FilesIntf FileId)
        (d : Diagnostic FileId) (e : String),
      group_labels fs d d.labels [] 0 = Except.error e →
        RichDiagnostic.emit fs d = ([], some e) ∧
        (e = "start_index" ∨ e = "end_index" ∨ e = "line" ∨ e = "origin")) ∧
    (∀ {FileId : Type} (fs : FilesIntf FileId) (d : Diagnostic FileId)
        (es : List Entry) (e : String),
      ShortDiagnostic.emit fs d = (es, some e) →
        ∃ k, ∃ hk : k < (primary_labels d).length, es.length = k ∧
          (∀ j (hj : j < (primary_labels d).length), j < k →
            short_label_ok fs ((primary_labels d).get ⟨j, hj⟩) = true) ∧
          short_label_ok fs ((primary_labels d).get ⟨k, hk⟩) = false ∧
          (∀ e2 ∈ es, entry_is_header e2 = true)) := by
  constructor
  · intro FileId _ fs d e h
    refine ⟨?_, group_labels_error_name fs d d.labels [] 0 e h⟩
    unfold RichDiagnostic.emit group_and_sort
    rw [h]
  · intro FileId fs d es e h
    unfold ShortDiagnostic.emit at h
    split at h
    · rename_i es0 e0 hgo
      rw [Prod.mk.injEq, Option.some.injEq] at h
      rcases h with ⟨rfl, rfl⟩
      rcases short_go_err fs d _ es0 e0 hgo with ⟨k, hk, hlen, hpre, hfail⟩
      refine ⟨k, hk, hlen, hpre, hfail, ?_⟩
      intro e2 he2
      exact short_go_headers fs d _ e2 (by rw [hgo]; exact he2)
    · rename_i es0 hgo
      split at h
      · simp at h
      · simp at h

/-- The database used by the C9 witness: one known file. -/
def failExFiles : SimpleFiles := SimpleFiles.mk [SimpleFile.new "a" ("0123456789".toList)]

/-- The diagnostic used by the C9 witness: a good label on file 0, then a
label naming the unknown file 5. -/
def failExDiag : Diagnostic Nat :=
  { severity := Severity.error, code := none, message := "m",
    labels := [{ style := LabelStyle.primary, file_id := 0, range := (1, 3),
                 message := "ok" },
               { style := LabelStyle.primary, file_id := 5, range := (0, 1),
                 message := "bad" }],
    notes := [] }

/-- C9 witness: the unknown file aborts both modes. -/
theorem c9_resolution_abort_witness :
    (RichDiagnostic.emit failExFiles.toIntf failExDiag = ([], some "start_index") ∧
      ("start_index" = "start_index" ∨ "start_index" = "end_index" ∨
        "start_index" = "line" ∨ "start_index" = "origin")) ∧
    (∃ k, ∃ hk : k < (primary_labels failExDiag).length,
      (ShortDiagnostic.emit failExFiles.toIntf failExDiag).1.length = k ∧
      (∀ j (hj : j < (primary_labels failExDiag).length), j < k →
        short_label_ok failExFiles.toIntf ((primary_labels failExDiag).get ⟨j, hj⟩)
          = true) ∧
      short_label_ok failExFiles.toIntf ((primary_labels failExDiag).get ⟨k, hk⟩)
        = false ∧
      (∀ e2 ∈ (ShortDiagnostic.emit failExFiles.toIntf failExDiag).1,
        entry_is_header e2 = true)) :=
  ⟨c9_resolution_abort.1 failExFiles.toIntf failExDiag "start_index" (by decide),
   c9_resolution_abort.2 failExFiles.toIntf failExDiag
     (ShortDiagnostic.emit failExFiles.toIntf failExDiag).1 "origin" (by decide)⟩

/-! ### Label grouping order -/

/-- First-occurrence order of a list of file identifiers. -/
def file_order {FileId : Type} [DecidableEq FileId] (fids : List FileId) : List FileId :=
  fids.foldl (fun acc fid => if fid ∈ acc then acc else acc ++ [fid]) []

theorem add_mark_fst {FileId : Type} [DecidableEq FileId] (fs : FilesIntf FileId)
    (fid : FileId) (fm : FileMark) (mfs mfs2 : List (FileId × MarkedFile))
    (h : add_mark fs fid fm mfs = Except.ok mfs2) :
    mfs2.map Prod.fst =
      if fid ∈ mfs.map Prod.fst then mfs.map Prod.fst else mfs.map Prod.fst ++ [fid] := by
  induction mfs generalizing mfs2 with
  | nil =>
    unfold add_mark at h
    split at h
    · cases h
    · cases h
      simp
  | cons p rest ih =>
    unfold add_mark at h
    split at h
    · rename_i heq
      cases h
      subst heq
      simp

    · rename_i hne
      split at h
      · cases h
      · rename_i rest2 heq
        cases h
        simp only [List.map_cons]
        rw [ih rest2 heq]
        by_cases hmem : fid ∈ rest.map Prod.fst
        · rw [if_pos hmem, if_pos (List.mem_cons.mpr (Or.inr hmem))]
        · rw [if_neg hmem, if_neg (by
            intro hc
            rcases List.mem_cons.mp hc with heq2 | hmem2
            · exact hne heq2
            · exact hmem hmem2)]
          simp

theorem group_labels_fst {FileId : Type} [DecidableEq FileId] (fs : FilesIntf FileId)
    (d : Diagnostic FileId) (ls : List (Label FileId))
    (mfs mfs2 : List (FileId × MarkedFile)) (pad pad2 : Nat)
    (h : group_labels fs d ls mfs pad = Except.ok (mfs2, pad2)) :
    mfs2.map Prod.fst =
      (ls.map Label.file_id).foldl
        (fun acc fid => if fid ∈ acc then acc else acc ++ [fid]) (mfs.map Prod.fst) := by
  induction ls generalizing mfs pad with
  | nil =>
    unfold group_labels at h
    cases h
    rfl
  | cons l rest ih =>
    unfold group_labels at h
    split at h
    · cases h
    split at h
    · cases h
    split at h
    · cases h
    split at h
    · cases h
    rename_i mfs1 hadd
    rw [List.map_cons, List.foldl_cons]
    rw [← add_mark_fst fs l.file_id _ mfs mfs1 hadd]
    exact ih mfs1 _ h

theorem markKeyLe_total (a b : FileMark) :
    markKeyLe a b = true ∨ markKeyLe b a = true := by
  simp only [markKeyLe, Bool.or_eq_true, Bool.and_eq_true, decide_eq_true_eq]
  omega

theorem markKeyLe_trans (a b c : FileMark) (hab : markKeyLe a b = true)
    (hbc : markKeyLe b c = true) : markKeyLe a c = true := by
  simp only [markKeyLe, Bool.or_eq_true, Bool.and_eq_true, decide_eq_true_eq] at *
  omega

theorem insertMark_perm (fm : FileMark) (xs : List FileMark) :
    (insertMark fm xs).Perm (fm :: xs) := by
  induction xs with
  | nil => exact List.Perm.refl _
  | cons x t ih =>
    unfold insertMark
    split
    · exact List.Perm.refl _
    · exact (List.Perm.cons x ih).trans (List.Perm.swap fm x t)

theorem mem_insertMark (fm y : FileMark) (xs : List FileMark)
    (h : y ∈ insertMark fm xs) : y = fm ∨ y ∈ xs :=
  match List.mem_cons.mp ((insertMark_perm fm xs).mem_iff.mp h) with
  | Or.inl h2 => Or.inl h2
  | Or.inr h2 => Or.inr h2

theorem insertMark_pairwise (fm : FileMark) (xs : List FileMark)
    (h : xs.Pairwise (fun a b => markKeyLe a b = true)) :
    (insertMark fm xs).Pairwise (fun a b => markKeyLe a b = true) := by
  induction xs with
  | nil => simp [insertMark]
  | cons x t ih =>
    rcases List.pairwise_cons.mp h with ⟨hx, ht⟩
    unfold insertMark
    split
    · rename_i hle
      rw [List.pairwise_cons]
      refine ⟨?_, h⟩
      intro y hy
      rcases List.mem_cons.mp hy with rfl | hyt
      · exact hle
      · exact markKeyLe_trans fm x y hle (hx y hyt)
    · rename_i hnle
      rw [List.pairwise_cons]
      refine ⟨?_, ih ht⟩
      intro y hy
      rcases mem_insertMark fm y t hy with rfl | hyt
      · rcases markKeyLe_total y x with h2 | h2
        · exact absurd h2 hnle
        · exact h2
      · exact hx y hyt

theorem sortMarks_pairwise (xs : List FileMark) :
    (sortMarks xs).Pairwise (fun a b => markKeyLe a b = true) := by
  induction xs with
  | nil => simp [sortMarks]
  | cons x t ih => exact insertMark_pairwise x (sortMarks t) ih

theorem sortMarks_perm (xs : List FileMark) : (sortMarks xs).Perm xs := by
  induction xs with
  | nil => exact List.Perm.refl _
  | cons x t ih =>
    unfold sortMarks
    exact (insertMark_perm x (sortMarks t)).trans (List.Perm.cons x ih)

/-- The two-file database of the C5 example. -/
def c5Files : SimpleFiles :=
  SimpleFiles.mk [SimpleFile.new "a" ("0123456789".toList),
                  SimpleFile.new "b" ("x".toList)]

/-- The diagnostic of the C5 example: labels `(a,5..8)`, `(a,1..3)`,
`(b,0..1)`. -/
def c5Diag : Diagnostic Nat :=
  { severity := Severity.error, code := none, message := "m",
    labels := [{ style := LabelStyle.primary, file_id := 0, range := (5, 8),
                 message := "l1" },
               { style := LabelStyle.secondary, file_id := 0, range := (1, 3),
                 message := "l2" },
               { style := LabelStyle.secondary, file_id := 1, range := (0, 1),
                 message := "l3" }],
    notes := [] }

/-- C5: grouping keeps files in first-label order and sorts each file's
marks by `(range.start, range.end)` lexicographically (a stable
permutation); on the example labels `[(a,5..8), (a,1..3), (b,0..1)]` the
file order is `[a, b]` and file `a`'s marks are `[1..3, 5..8]`. -/
theorem c5_label_grouping :
    (∀ {FileId : Type} [DecidableEq FileId] (fs : FilesIntf FileId)
        (d : Diagnostic FileId) (mfs : List (FileId × MarkedFile)) (pad : Nat),
      group_and_sort fs d = Except.ok (mfs, pad) →
        mfs.map Prod.fst = file_order (d.labels.map Label.file_id) ∧
        ∀ p ∈ mfs, p.2.marks.Pairwise (fun a b => markKeyLe a b = true)) ∧
    (∀ (ms : List FileMark), (sortMarks ms).Perm ms) ∧
    ((match group_and_sort c5Files.toIntf c5Diag with
      | Except.ok (mfs, _) =>
          mfs.map (fun p => (p.2.origin, p.2.marks.map (fun m => m.range)))
      | Except.error _ => [])
      = [("a", [(1, 3), (5, 8)]), ("b", [(0, 1)])]) := by
  refine ⟨?_, sortMarks_perm, by decide⟩
  intro FileId _ fs d mfs pad h
  unfold group_and_sort at h
  cases hgroup : group_labels fs d d.labels [] 0 with
  | error e =>
    rw [hgroup] at h
    cases h
  | ok v =>
  obtain ⟨mfs0, pad0⟩ := v
  rw [hgroup] at h
  cases h
  constructor
  · rw [List.map_map]
    have : (Prod.fst ∘ fun p : FileId × MarkedFile =>
        (p.1, { p.2 with marks := sortMarks p.2.marks })) = Prod.fst := rfl
    rw [this]
    exact group_labels_fst fs d d.labels [] mfs0 0 pad hgroup
  · intro p hp
    rcases List.mem_map.mp hp with ⟨q, _, rfl⟩
    exact sortMarks_pairwise q.2.marks

/-- Whether an `Except` value is `ok`. -/
def except_is_ok {E A : Type} : Except E A → Bool
  | Except.ok _ => true
  | Except.error _ => false

/-- C5 witness. -/
theorem c5_label_grouping_witness :
    ∃ mfs : List (Nat × MarkedFile), ∃ pad : Nat,
      group_and_sort c5Files.toIntf c5Diag = Except.ok (mfs, pad) ∧
      mfs.map Prod.fst = file_order (c5Diag.labels.map Label.file_id) ∧
      ∀ p ∈ mfs, p.2.marks.Pairwise (fun a b => markKeyLe a b = true) := by
  cases hgs : group_and_sort c5Files.toIntf c5Diag with
  | error e =>
    exfalso
    have hok : except_is_ok (group_and_sort c5Files.toIntf c5Diag) = true := by decide
    rw [hgs] at hok
    exact Bool.noConfusion hok
  | ok v =>
    obtain ⟨mfs0, pad0⟩ := v
    exact ⟨mfs0, pad0, rfl,
      c5_label_grouping.1 c5Files.toIntf c5Diag mfs0 pad0 hgs⟩

/-! ### Line collection over a SimpleFile -/

/-- `collect_lines` on a run of indices whose line queries all succeed:
the resolved lines in order, with the running max of digit counts. -/
theorem collect_lines_eq {FileId : Type} (fs : FilesIntf FileId) (fid : FileId)
    (idxs : List Nat) (pad : Nat) (g : Nat → ViewLine)
    (hg : ∀ i ∈ idxs, fs.line fid i = some (g i)) :
    collect_lines fs fid idxs pad
      = Except.ok (idxs.map g,
          idxs.foldl (fun p i => max p (count_digits (g i).number)) pad) := by
  induction idxs generalizing pad with
  | nil => rfl
  | cons i rest ih =>
    unfold collect_lines
    rw [hg i (List.mem_cons_self i rest)]
    show (match collect_lines fs fid rest (max pad (count_digits (g i).number)) with
      | Except.error e => Except.error e
      | Except.ok (lines, pad2) => Except.ok (g i :: lines, pad2)) = _
    rw [ih _ (fun j hj => hg j (List.mem_cons_of_mem i hj))]
    rfl

/-- A `SimpleFile` resolves every line index below the number of lines. -/
theorem toIntf_line_some (origin : String) (source : List Char) (i : Nat)
    (hi : i < (line_starts source).length) :
    ∃ line : ViewLine,
      (SimpleFile.new origin source).toIntf.line () i = some line ∧
      line.number = i + 1 ∧
      line.start = (line_starts source).get ⟨i, hi⟩ := by
  have e1 : (SimpleFile.new origin source).lineStarts = line_starts source := rfl
  have hstart : (SimpleFile.new origin source).line_start i
      = some ((line_starts source).get ⟨i, hi⟩) := by
    unfold SimpleFile.line_start
    rw [e1, if_pos hi]
    exact List.get?_eq_get hi
  have hnext : ∃ t, (SimpleFile.new origin source).line_start (i + 1) = some t := by
    unfold SimpleFile.line_start
    rw [e1]
    by_cases h2 : i + 1 < (line_starts source).length
    · rw [if_pos h2]
      exact ⟨_, List.get?_eq_get h2⟩
    · rw [if_neg h2, if_pos (by omega)]
      exact ⟨_, rfl⟩
  obtain ⟨t, ht⟩ := hnext
  refine ⟨{ start := (line_starts source).get ⟨i, hi⟩, number := i + 1,
            source := takeBytes (dropBytes (SimpleFile.new origin source).source
              ((line_starts source).get ⟨i, hi⟩)) (t - (line_starts source).get ⟨i, hi⟩) },
    ?_, rfl, rfl⟩
  show ((SimpleFile.new origin source).line_range i).map _ = _
  unfold SimpleFile.line_range
  rw [hstart, ht]
  rfl

/-- `line_index` on a constructed file keeps the answer below the line
count. -/
theorem line_index_new_lt (origin : String) (source : List Char) (b i : Nat)
    (h : (SimpleFile.new origin source).line_index b = some i) :
    i < (line_starts source).length := by
  rw [line_index_new_eq] at h
  cases h
  have h1 : 1 ≤ (line_starts source).countP (fun y => decide (y ≤ b)) := by
    rw [Nat.succ_le_iff, List.countP_pos]
    exact ⟨0, zero_mem_line_starts source, by simp⟩
  have h2 : (line_starts source).countP (fun y => decide (y ≤ b))
      ≤ (line_starts source).length := List.countP_le_length _
  omega

/-- `line_index` on a constructed file is monotone in the byte index. -/
theorem line_index_new_mono (origin : String) (source : List Char) (b1 b2 i1 i2 : Nat)
    (hb : b1 ≤ b2)
    (h1 : (SimpleFile.new origin source).line_index b1 = some i1)
    (h2 : (SimpleFile.new origin source).line_index b2 = some i2) :
    i1 ≤ i2 := by
  rw [line_index_new_eq] at h1 h2
  cases h1
  cases h2
  have : (line_starts source).countP (fun y => decide (y ≤ b1))
      ≤ (line_starts source).countP (fun y => decide (y ≤ b2)) := by
    apply List.countP_mono_left
    intro y _ hy
    simp at hy ⊢
    omega
  omega

/-! ### Single-line marks -/

/-- The diagnostic of the C3 example: one label `4..7` with message "oops"
over `"foo\nbar\n"`. -/
def c3Diag : Diagnostic Unit :=
  { severity := Severity.error, code := none, message := "m",
    labels := [{ style := LabelStyle.primary, file_id := (), range := (4, 7),
                 message := "oops" }],
    notes := [] }

/-- C3: a label whose start and end bytes resolve to the same line yields
exactly one `SourceLine` with a single `Mark::Single` at the label's range
made line-relative, carrying the label's message; on `"foo\nbar\n"` with
label `4..7` and message "oops" the full rich render contains exactly one
`SourceLine`, for line number 2, marked `Single 0..3 "oops"`, and no
multi-line marks. -/
theorem c3_single_line_mark :
    (∀ (origin : String) (source : List Char) (pad : Nat) (sev : MarkSeverity)
        (msg : String) (s e i : Nat),
      (SimpleFile.new origin source).line_index s = some i →
      (SimpleFile.new origin source).line_index e = some i →
      ∃ line pad2,
        collect_lines (SimpleFile.new origin source).toIntf () (rangeIncl i i) pad
          = Except.ok ([line], pad2) ∧
        (SimpleFile.new origin source).toIntf.line () i = some line ∧
        line.number = i + 1 ∧
        render_mark pad { severity := sev, lines := [line], range := (s, e),
                          message := msg }
          = ([Entry.SourceLine pad line.number line.source
              [some (sev, Mark.Single (s - line.start, e - line.start) msg)]], none)) ∧
    RichDiagnostic.emit (SimpleFile.new "t" ("foo\nbar\n".toList)).toIntf c3Diag
      = ([Entry.Header none Severity.error none "m",
          Entry.Empty,
          Entry.SourceStart 1 { origin := "t", line_number := 2, column_number := 1 },
          Entry.SourceEmpty 1,
          Entry.SourceLine 1 2 ("bar\n".toList)
            [some (some Severity.error, Mark.Single (0, 3) "oops")],
          Entry.SourceEmpty 1,
          Entry.Empty], none) := by
  constructor
  · intro origin source pad sev msg s e i hsi _
    have hi : i < (line_starts source).length := line_index_new_lt origin source s i hsi
    obtain ⟨line, hline, hnum, _⟩ := toIntf_line_some origin source i hi
    have hrange : rangeIncl i i = [i] := by
      unfold rangeIncl
      have h1 : i + 1 - i = 1 := by omega
      rw [h1, List.range'_one]
    refine ⟨line, max pad (count_digits line.number), ?_, hline, hnum, rfl⟩
    rw [hrange]
    have := collect_lines_eq (SimpleFile.new origin source).toIntf () [i] pad
      (fun _ => line) (by intro j hj; rcases List.mem_singleton.mp hj with rfl; exact hline)
    simpa using this
  · decide

/-- C3 witness. -/
theorem c3_single_line_mark_witness :
    (SimpleFile.new "t" ("foo\nbar\n".toList)).line_index 4 = some 1 ∧
    (SimpleFile.new "t" ("foo\nbar\n".toList)).line_index 7 = some 1 ∧
    ∃ line pad2,
      collect_lines (SimpleFile.new "t" ("foo\nbar\n".toList)).toIntf () (rangeIncl 1 1) 0
        = Except.ok ([line], pad2) ∧
      (SimpleFile.new "t" ("foo\nbar\n".toList)).toIntf.line () 1 = some line ∧
      line.number = 1 + 1 ∧
      render_mark 0 { severity := some Severity.error, lines := [line], range := (4, 7),
                      message := "oops" }
        = ([Entry.SourceLine 0 line.number line.source
            [some (some Severity.error,
              Mark.Single (4 - line.start, 7 - line.start) "oops")]], none) :=
  ⟨by decide, by decide,
   c3_single_line_mark.1 "t" ("foo\nbar\n".toList) 0 (some Severity.error) "oops" 4 7 1
     (by decide) (by decide)⟩

/-! ### Multi-line marks -/

theorem render_mark_multi (pad : Nat) (sev : MarkSeverity) (msg : String)
    (s e : Nat) (start_line end_line : ViewLine) (mids : List ViewLine)
    (hb : is_char_boundary start_line.source (s - start_line.start) = true) :
    render_mark pad { severity := sev, lines := start_line :: mids ++ [end_line],
                      range := (s, e), message := msg }
      = ((if trimIsEmpty (takeBytes start_line.source (s - start_line.start)) then
          [Entry.SourceLine pad start_line.number start_line.source
            [some (sev, Mark.MultiTopLeft)]]
        else
          [Entry.SourceLine pad start_line.number start_line.source
            [some (sev, Mark.MultiTop (s - start_line.start))]])
        ++ mids.map (fun l => Entry.SourceLine pad l.number l.source
            [some (sev, Mark.MultiLeft)])
        ++ [Entry.SourceLine pad end_line.number end_line.source
            [some (sev, Mark.MultiBottom (e - end_line.start) msg)]], none) := by
  have hs : slice_to start_line.source (s - start_line.start)
      = some (takeBytes start_line.source (s - start_line.start)) := by
    unfold slice_to
    rw [if_pos hb]
  unfold render_mark
  show (match (mids ++ [end_line]).getLast? with
    | none =>
      ([Entry.SourceLine pad start_line.number start_line.source
        [some (sev, Mark.Single (s - start_line.start, e - start_line.start) msg)]],
       none)
    | some end_line2 =>
      match slice_to start_line.source (s - start_line.start) with
      | none => ([], some "slice")
      | some prefix_source =>
        ((if trimIsEmpty prefix_source then
            [Entry.SourceLine pad start_line.number start_line.source
              [some (sev, Mark.MultiTopLeft)]]
          else
            [Entry.SourceLine pad start_line.number start_line.source
              [some (sev, Mark.MultiTop (s - start_line.start))]])
          ++ ((mids ++ [end_line]).dropLast).map (fun l : ViewLine =>
              Entry.SourceLine pad l.number l.source [some (sev, Mark.MultiLeft)])
          ++ [Entry.SourceLine pad end_line2.number end_line2.source
              [some (sev, Mark.MultiBottom (e - end_line2.start) msg)]],
         none)) = _
  rw [hs, List.getLast?_concat, List.dropLast_concat]

/-- C2, amended: the emission additionally requires the mark's start offset
within the start line to fall on a character boundary — a mid-character
start makes the prefix slice panic instead (see the counterexample). Under
that proviso, a label whose start and end bytes resolve to different lines
of a `SimpleFile` renders as a `MultiTopLeft` (all-whitespace or empty
prefix before the mark) or `MultiTop` (otherwise) entry on the start line,
a `MultiLeft` entry with the full line text for every strictly intermediate
line, and a `MultiBottom` entry bounded by the line-relative end offset and
carrying the label's message on the end line. -/
theorem c2_multi_line_marks (origin : String) (source : List Char) (pad : Nat)
    (sev : MarkSeverity) (msg : String) (s e si ei : Nat) (start_line : ViewLine)
    (hse : s ≤ e)
    (hsi : (SimpleFile.new origin source).line_index s = some si)
    (hei : (SimpleFile.new origin source).line_index e = some ei)
    (hne : si ≠ ei)
    (hstart : (SimpleFile.new origin source).toIntf.line () si = some start_line)
    (hbound : is_char_boundary start_line.source (s - start_line.start) = true) :
    ∃ mids end_line pad2,
      collect_lines (SimpleFile.new origin source).toIntf () (rangeIncl si ei) pad
        = Except.ok (start_line :: mids ++ [end_line], pad2) ∧
      (SimpleFile.new origin source).toIntf.line () ei = some end_line ∧
      mids.length = ei - si - 1 ∧
      (∀ k (hk : k < mids.length),
        (SimpleFile.new origin source).toIntf.line () (si + 1 + k)
          = some (mids.get ⟨k, hk⟩)) ∧
      render_mark pad { severity := sev, lines := start_line :: mids ++ [end_line],
                        range := (s, e), message := msg }
        = ((if trimIsEmpty (takeBytes start_line.source (s - start_line.start)) then
            [Entry.SourceLine pad start_line.number start_line.source
              [some (sev, Mark.MultiTopLeft)]]
          else
            [Entry.SourceLine pad start_line.number start_line.source
              [some (sev, Mark.MultiTop (s - start_line.start))]])
          ++ mids.map (fun l => Entry.SourceLine pad l.number l.source
              [some (sev, Mark.MultiLeft)])
          ++ [Entry.SourceLine pad end_line.number end_line.source
              [some (sev, Mark.MultiBottom (e - end_line.start) msg)]], none) := by
  have hlt : si < ei :=
    Nat.lt_of_le_of_ne (line_index_new_mono origin source s e si ei hse hsi hei) hne
  have hei_lt : ei < (line_starts source).length :=
    line_index_new_lt origin source e ei hei
  -- every index in the run resolves
  have hall : ∀ i ∈ rangeIncl si ei, ∃ line,
      (SimpleFile.new origin source).toIntf.line () i = some line := by
    intro i hi
    have hi2 : si ≤ i ∧ i < si + (ei + 1 - si) :=
      List.mem_range'_1.mp (by simpa [rangeIncl] using hi)
    have hi_lt : i < (line_starts source).length := by omega
    obtain ⟨line, hline, -, -⟩ := toIntf_line_some origin source i hi_lt
    exact ⟨line, hline⟩
  -- choose a resolving function
  have hg : ∃ g : Nat → ViewLine, ∀ i ∈ rangeIncl si ei,
      (SimpleFile.new origin source).toIntf.line () i = some (g i) := by
    refine ⟨fun i => ((SimpleFile.new origin source).toIntf.line () i).getD
      { start := 0, number := 0, source := [] }, ?_⟩
    intro i hi
    obtain ⟨line, hline⟩ := hall i hi
    simp only [hline, Option.getD_some]
  obtain ⟨g, hgmem⟩ := hg
  have hcollect := collect_lines_eq (SimpleFile.new origin source).toIntf ()
    (rangeIncl si ei) pad g hgmem
  -- decompose the index run
  have hlen : ei + 1 - si = (ei - si - 1) + 1 + 1 := by omega
  have hsplit : rangeIncl si ei
      = si :: (List.range' (si + 1) (ei - si - 1) ++ [ei]) := by
    rw [rangeIncl, hlen, List.range'_succ]
    congr 1
    rw [List.range'_concat]
    congr 2
    omega
  have hmem_si : si ∈ rangeIncl si ei := by
    rw [hsplit]; exact List.mem_cons_self _ _
  have hmem_ei : ei ∈ rangeIncl si ei := by
    rw [hsplit]
    exact List.mem_cons_of_mem _ (List.mem_append_right _ (List.mem_singleton.mpr rfl))
  have hgsi : g si = start_line := by
    have h2 := hgmem si hmem_si
    rw [hstart] at h2
    injection h2 with h3
    exact h3.symm
  subst hgsi
  refine ⟨(List.range' (si + 1) (ei - si - 1)).map g, g ei,
    (rangeIncl si ei).foldl (fun p i => max p (count_digits (g i).number)) pad,
    ?_,
    hgmem ei hmem_ei, by simp, ?_, render_mark_multi pad sev msg s e (g si) (g ei) _ hbound⟩
  · rw [hcollect, hsplit]
    simp
  · intro k hk
    have hk2 : k < ei - si - 1 := by simpa using hk
    have hmem_k : si + 1 + k ∈ rangeIncl si ei := by
      simp only [rangeIncl]
      rw [List.mem_range'_1]
      omega
    rw [hgmem (si + 1 + k) hmem_k]
    congr 1
    rw [List.get_eq_getElem, List.getElem_map, List.getElem_range']
    congr 1
    show si + 1 + k = si + 1 + 1 * k
    omega

/-- The C2 counterexample file: the label start byte 3 falls inside the
four-byte character of line 1. -/
def c2CexFile : SimpleFile := SimpleFile.new "u" ("a🗻b\nxyz\n".toList)

/-- The C2 counterexample diagnostic: one label `3..8` spanning lines 1-2
whose start byte is not a character boundary. -/
def c2CexDiag : Diagnostic Unit :=
  { severity := Severity.error, code := none, message := "m",
    labels := [{ style := LabelStyle.primary, file_id := (), range := (3, 8),
                 message := "m2" }],
    notes := [] }

/-- C2 counterexample: the label's start and end bytes resolve to different
lines, yet the render aborts at the prefix slice ("slice") having emitted
no `SourceLine` at all — no `MultiTop`, `MultiLeft` or `MultiBottom` mark
appears, refuting the claim's unconditional emission. -/
theorem c2_multi_line_marks_counterexample :
    c2CexFile.line_index 3 = some 0 ∧
    c2CexFile.line_index 8 = some 1 ∧
    (0 : Nat) ≠ 1 ∧
    RichDiagnostic.emit c2CexFile.toIntf c2CexDiag
      = ([Entry.Header none Severity.error none "m",
          Entry.Empty,
          Entry.SourceStart 1 { origin := "u", line_number := 1, column_number := 2 },
          Entry.SourceEmpty 1], some "slice") := by
  decide

/-- The C2 witness file: `"foo\n  bar\nbaz\nquux\n"`. -/
def c2File : SimpleFile := SimpleFile.new "ml" ("foo\n  bar\nbaz\nquux\n".toList)

/-- The start line of the C2 witness label: line index 1 of `c2File`. -/
def c2StartLine : ViewLine :=
  { start := 4, number := 2, source := "  bar\n".toList }

/-- C2 witness: a label from byte 6 (a character boundary inside line 2) to
byte 15 (inside line 4). -/
theorem c2_multi_line_marks_witness :
    (6 : Nat) ≤ 15 ∧
    c2File.line_index 6 = some 1 ∧
    c2File.line_index 15 = some 3 ∧
    (1 : Nat) ≠ 3 ∧
    c2File.toIntf.line () 1 = some c2StartLine ∧
    is_char_boundary c2StartLine.source (6 - c2StartLine.start) = true ∧
    ∃ mids end_line pad2,
      collect_lines c2File.toIntf () (rangeIncl 1 3) 0
        = Except.ok (c2StartLine :: mids ++ [end_line], pad2) ∧
      c2File.toIntf.line () 3 = some end_line ∧
      mids.length = 3 - 1 - 1 ∧
      (∀ k (hk : k < mids.length),
        c2File.toIntf.line () (1 + 1 + k) = some (mids.get ⟨k, hk⟩)) ∧
      render_mark 0 { severity := some Severity.warning,
                      lines := c2StartLine :: mids ++ [end_line],
                      range := (6, 15), message := "span" }
        = ((if trimIsEmpty (takeBytes c2StartLine.source (6 - c2StartLine.start)) then
            [Entry.SourceLine 0 c2StartLine.number c2StartLine.source
              [some (some Severity.warning, Mark.MultiTopLeft)]]
          else
            [Entry.SourceLine 0 c2StartLine.number c2StartLine.source
              [some (some Severity.warning, Mark.MultiTop (6 - c2StartLine.start))]])
          ++ mids.map (fun l => Entry.SourceLine 0 l.number l.source
              [some (some Severity.warning, Mark.MultiLeft)])
          ++ [Entry.SourceLine 0 end_line.number end_line.source
              [some (some Severity.warning, Mark.MultiBottom (15 - end_line.start) "span")]],
           none) :=
  ⟨by omega, by decide, by decide, by omega, by decide, by decide,
   c2_multi_line_marks "ml" ("foo\n  bar\nbaz\nquux\n".toList) 0 (some Severity.warning)
     "span" 6 15 1 3 c2StartLine (by omega) (by decide) (by decide) (by omega)
     (by decide) (by decide)⟩

/-! ### Outer padding -/

theorem count_digits_mono : ∀ n m : Nat, m ≤ n → count_digits m ≤ count_digits n := by
  intro n
  induction n using Nat.strong_induction_on with
  | _ n ih =>
    intro m hm
    rcases Nat.eq_zero_or_pos m with rfl | hmpos
    · rw [count_digits_eq 0]
      simp
    · rw [count_digits_eq m, count_digits_eq n, if_neg (by omega), if_neg (by omega)]
      have h1 : m / 10 ≤ n / 10 := Nat.div_le_div_right hm
      have h2 : n / 10 < n := Nat.div_lt_self (by omega) (by omega)
      exact Nat.succ_le_succ (ih (n / 10) h2 (m / 10) h1)

theorem count_digits_max (a b : Nat) :
    count_digits (max a b) = max (count_digits a) (count_digits b) := by
  rcases Nat.le_total a b with h | h
  · rw [Nat.max_eq_right h, Nat.max_eq_right (count_digits_mono b a h)]
  · rw [Nat.max_eq_left h, Nat.max_eq_left (count_digits_mono a b h)]

/-- The 1-based number of the line holding a label's end byte, as resolved
by a `SimpleFiles` database (0 when the query fails). -/
def end_line_number (sfs : SimpleFiles) (l : Label Nat) : Nat :=
  match sfs.toIntf.line_index l.file_id l.range.2 with
  | some ei => ei + 1
  | none => 0

/-- The outer padding recorded in an `Entry`, when it carries one. -/
def entry_padding : Entry → Option Nat
  | Entry.Header _ _ _ _ => none
  | Entry.Empty => none
  | Entry.SourceStart p _ => some p
  | Entry.SourceEmpty p => some p
  | Entry.SourceBreak p => some p
  | Entry.SourceLine p _ _ _ => some p
  | Entry.SourceNote p _ => some p

/-- Lines resolved through a `SimpleFiles` database carry `number = index + 1`. -/
theorem toIntf_line_number (sfs : SimpleFiles) (fid i : Nat) (line : ViewLine)
    (h : sfs.toIntf.line fid i = some line) : line.number = i + 1 := by
  unfold SimpleFiles.toIntf at h
  simp only at h
  cases hget : sfs.get fid with
  | none => rw [hget] at h; cases h
  | some f =>
    rw [hget] at h
    simp only [Option.some_bind] at h
    unfold SimpleFile.toIntf at h
    simp only at h
    cases hr : f.line_range i with
    | none => rw [hr] at h; cases h
    | some r =>
      rw [hr] at h
      cases h
      rfl

/-- `collect_lines` over a table whose lines carry `number = index + 1`
accumulates exactly the digit counts of the successive `index + 1`. -/
theorem collect_lines_padding {FileId : Type} (fs : FilesIntf FileId) (fid : FileId)
    (hnum : ∀ i line, fs.line fid i = some line → line.number = i + 1) :
    ∀ (idxs : List Nat) (pad pad2 : Nat) (lines : List ViewLine),
      collect_lines fs fid idxs pad = Except.ok (lines, pad2) →
      pad2 = idxs.foldl (fun p i => max p (count_digits (i + 1))) pad := by
  intro idxs
  induction idxs with
  | nil =>
    intro pad pad2 lines h
    cases h
    rfl
  | cons i rest ih =>
    intro pad pad2 lines h
    unfold collect_lines at h
    split at h
    · cases h
    rename_i l hl
    split at h
    · cases h
    rename_i lines2 pad3 hrest
    cases h
    rw [List.foldl_cons]
    rw [← hnum i l hl]
    exact ih _ _ _ hrest

/-- Folding max digit counts over a non-empty run of consecutive
`index + 1` values yields the digit count of the last one. -/
theorem foldl_count_digits_range (a : Nat) :
    ∀ (n pad : Nat), 1 ≤ n →
      (List.range' a n).foldl (fun p i => max p (count_digits (i + 1))) pad
        = max pad (count_digits (a + n)) := by
  intro n
  induction n generalizing a with
  | zero => intro pad h; omega
  | succ m ih =>
    intro pad _
    rcases Nat.eq_zero_or_pos m with rfl | hm
    · rw [List.range'_one]
      rfl
    · rw [List.range'_succ, List.foldl_cons]
      rw [ih (a + 1) _ hm]
      have hmono : count_digits (a + 1) ≤ count_digits (a + 1 + m) :=
        count_digits_mono _ _ (by omega)
      have harith : a + 1 + m = a + (m + 1) := by omega
      rw [harith] at hmono ⊢
      omega

/-- A `SimpleFiles` database as produced by `SimpleFiles::add`: every stored
file's cached line starts are the line starts of its own source. -/
def SimpleFiles.wf (sfs : SimpleFiles) : Prop :=
  ∀ f ∈ sfs.files, f.lineStarts = line_starts f.source

instance (sfs : SimpleFiles) : Decidable sfs.wf := by
  unfold SimpleFiles.wf
  infer_instance

/-- `line_index` through a well-formed `SimpleFiles` database is monotone in
the byte index. -/
theorem toIntf_line_index_mono (sfs : SimpleFiles) (hwf : sfs.wf)
    (fid b1 b2 i1 i2 : Nat) (hb : b1 ≤ b2)
    (h1 : sfs.toIntf.line_index fid b1 = some i1)
    (h2 : sfs.toIntf.line_index fid b2 = some i2) :
    i1 ≤ i2 := by
  unfold SimpleFiles.toIntf at h1 h2
  simp only at h1 h2
  cases hget : sfs.get fid with
  | none => rw [hget] at h1; cases h1
  | some f =>
    rw [hget] at h1 h2
    simp only [Option.some_bind] at h1 h2
    have hps : f.lineStarts.Pairwise (· < ·) := by
      have hmem : f ∈ sfs.files := List.get?_mem hget
      rw [hwf f hmem]
      exact line_starts_pairwise f.source
    rw [line_index_eq_countP f hps b1] at h1
    rw [line_index_eq_countP f hps b2] at h2
    cases h1
    cases h2
    have : f.lineStarts.countP (fun y => decide (y ≤ b1))
        ≤ f.lineStarts.countP (fun y => decide (y ≤ b2)) := by
      apply List.countP_mono_left
      intro y _ hy
      simp at hy ⊢
      omega
    omega

/-- Through a well-formed `SimpleFiles` database, the grouping loop's
running padding ends as the running max of the digit counts of each
label's end-line number. -/
theorem group_labels_padding (sfs : SimpleFiles) (hwf : sfs.wf) (d : Diagnostic Nat) :
    ∀ (ls : List (Label Nat)) (mfs mfs2 : List (Nat × MarkedFile)) (pad pad2 : Nat),
      (∀ l ∈ ls, l.range.1 ≤ l.range.2) →
      group_labels sfs.toIntf d ls mfs pad = Except.ok (mfs2, pad2) →
      pad2 = ls.foldl (fun p l => max p (count_digits (end_line_number sfs l))) pad := by
  intro ls
  induction ls with
  | nil =>
    intro mfs mfs2 pad pad2 _ h
    cases h
    rfl
  | cons l rest ih =>
    intro mfs mfs2 pad pad2 hranges h
    unfold group_labels at h
    split at h
    · cases h
    rename_i si hsi
    split at h
    · cases h
    rename_i ei hei
    split at h
    · cases h
    rename_i lines pad3 hcoll
    split at h
    · cases h
    rename_i mfs3 hadd
    have hse : si ≤ ei :=
      toIntf_line_index_mono sfs hwf l.file_id l.range.1 l.range.2 si ei
        (hranges l (List.mem_cons_self l rest)) hsi hei
    have hpad3 : pad3 = (rangeIncl si ei).foldl
        (fun p i => max p (count_digits (i + 1))) pad :=
      collect_lines_padding sfs.toIntf l.file_id
        (fun i line hline => toIntf_line_number sfs l.file_id i line hline)
        (rangeIncl si ei) pad pad3 lines hcoll
    have hrange : pad3 = max pad (count_digits (ei + 1)) := by
      rw [hpad3]
      unfold rangeIncl
      rw [foldl_count_digits_range si (ei + 1 - si) pad (by omega)]
      congr 2
      omega
    have heln : end_line_number sfs l = ei + 1 := by
      unfold end_line_number
      rw [hei]
    rw [List.foldl_cons]
    rw [← heln] at hrange
    rw [← hrange]
    exact ih mfs3 mfs2 pad3 pad2
      (fun l2 hl2 => hranges l2 (List.mem_cons_of_mem l hl2)) h

/-- Folding the digit-count max over labels is the digit count of the max
end-line number. -/
theorem foldl_count_digits_labels (sfs : SimpleFiles) :
    ∀ (ls : List (Label Nat)) (acc : Nat),
      ls.foldl (fun p l => max p (count_digits (end_line_number sfs l)))
          (count_digits acc)
        = count_digits (ls.foldl (fun m l => max m (end_line_number sfs l)) acc) := by
  intro ls
  induction ls with
  | nil => intro acc; rfl
  | cons l rest ih =>
    intro acc
    rw [List.foldl_cons, List.foldl_cons]
    rw [← count_digits_max acc (end_line_number sfs l)]
    exact ih (max acc (end_line_number sfs l))

/-! #### Uniformity of the padding across entries -/

theorem render_mark_padding (pad : Nat) (fm : FileMark) :
    ∀ x ∈ (render_mark pad fm).1, entry_padding x = some pad := by
  intro x hx
  unfold render_mark at hx
  split at hx
  · cases hx
  rename_i start_line remaining
  split at hx
  · rcases List.mem_singleton.mp hx with rfl
    rfl
  rename_i end_line hlast
  split at hx
  · cases hx
  rename_i prefix_source hslice
  rcases List.mem_append.mp hx with hx2 | hx2
  · rcases List.mem_append.mp hx2 with hx3 | hx3
    · split at hx3
      · rcases List.mem_singleton.mp hx3 with rfl
        rfl
      · rcases List.mem_singleton.mp hx3 with rfl
        rfl
    · rcases List.mem_map.mp hx3 with ⟨l, -, rfl⟩
      rfl
  · rcases List.mem_singleton.mp hx2 with rfl
    rfl

theorem render_marks_padding (pad : Nat) :
    ∀ (ms : List FileMark) (i : Nat), ∀ x ∈ (render_marks pad i ms).1,
      entry_padding x = some pad := by
  intro ms
  induction ms with
  | nil => intro i x hx; cases hx
  | cons fm rest ih =>
    intro i x hx
    unfold render_marks at hx
    split at hx
    · rename_i es e heq
      rcases List.mem_cons.mp hx with rfl | hx2
      · split
        · rfl
        · rfl
      · have hmem : x ∈ (render_mark pad fm).1 := by rw [heq]; exact hx2
        exact render_mark_padding pad fm x hmem
    · rename_i es heq
      split at hx
      rename_i es2 r heq2
      rcases List.mem_cons.mp hx with rfl | hx2
      · split
        · rfl
        · rfl
      · rcases List.mem_append.mp hx2 with hx3 | hx3
        · have hmem : x ∈ (render_mark pad fm).1 := by rw [heq]; exact hx3
          exact render_mark_padding pad fm x hmem
        · have hmem : x ∈ (render_marks pad (i + 1) rest).1 := by rw [heq2]; exact hx3
          exact ih (i + 1) x hmem

theorem render_file_padding (pad : Nat) (mf : MarkedFile) :
    ∀ x ∈ (render_file pad mf).1, entry_padding x = some pad := by
  intro x hx
  unfold render_file at hx
  split at hx
  · cases hx
  rename_i first_mark rest
  split at hx
  · cases hx
  rename_i first_line hfl
  split at hx
  · rename_i es e heq
    rcases List.mem_cons.mp hx with rfl | hx2
    · rfl
    · have hmem : x ∈ (render_marks pad 0 mf.marks).1 := by rw [heq]; exact hx2
      exact render_marks_padding pad mf.marks 0 x hmem
  · rename_i es heq
    rcases List.mem_cons.mp hx with rfl | hx2
    · rfl
    · rcases List.mem_append.mp hx2 with hx3 | hx3
      · have hmem : x ∈ (render_marks pad 0 mf.marks).1 := by rw [heq]; exact hx3
        exact render_marks_padding pad mf.marks 0 x hmem
      · rcases List.mem_singleton.mp hx3 with rfl
        rfl

theorem render_files_padding {FileId : Type} (pad : Nat) :
    ∀ (mfs : List (FileId × MarkedFile)), ∀ x ∈ (render_files pad mfs).1,
      entry_padding x = some pad := by
  intro mfs
  induction mfs with
  | nil => intro x hx; cases hx
  | cons p rest ih =>
    intro x hx
    unfold render_files at hx
    split at hx
    · rename_i es e heq
      have : x ∈ (render_file pad p.2).1 := by rw [heq]; exact hx
      exact render_file_padding pad p.2 x this
    · rename_i es heq
      split at hx
      rename_i es2 r2 heq2
      rcases List.mem_append.mp hx with hx2 | hx2
      · have : x ∈ (render_file pad p.2).1 := by rw [heq]; exact hx2
        exact render_file_padding pad p.2 x this
      · have : x ∈ (render_files pad rest).1 := by rw [heq2]; exact hx2
        exact ih x this

/-- Every entry of a rich render carries the grouping phase's single
`outer_padding` (or none for the padding-free entries). -/
theorem emit_padding_uniform {FileId : Type} [DecidableEq FileId]
    (fs : FilesIntf FileId) (d : Diagnostic FileId)
    (mfs : List (FileId × MarkedFile)) (pad : Nat) (es : List Entry)
    (r : Option String)
    (hgs : group_and_sort fs d = Except.ok (mfs, pad))
    (h : RichDiagnostic.emit fs d = (es, r)) :
    ∀ x ∈ es, entry_padding x = none ∨ entry_padding x = some pad := by
  unfold RichDiagnostic.emit at h
  rw [hgs] at h
  replace h : (match render_files pad mfs with
      | (es2, some e) =>
        ((Entry.Header none d.severity d.code d.message
          :: (if mfs.isEmpty then [] else [Entry.Empty])) ++ es2, some e)
      | (es2, none) =>
        ((Entry.Header none d.severity d.code d.message
          :: (if mfs.isEmpty then [] else [Entry.Empty])) ++ es2
          ++ d.notes.map (fun n => Entry.SourceNote pad n)
          ++ [Entry.Empty], none)) = (es, r) := h
  intro x hx
  cases hrf : render_files pad mfs with
  | mk es2 r2 =>
    rw [hrf] at h
    cases r2 with
    | some e =>
      cases h
      rcases List.mem_append.mp hx with hx2 | hx2
      · rcases List.mem_cons.mp hx2 with rfl | hx3
        · exact Or.inl rfl
        · split at hx3
          · cases hx3
          · rcases List.mem_singleton.mp hx3 with rfl
            exact Or.inl rfl
      · refine Or.inr ?_
        have : x ∈ (render_files pad mfs).1 := by rw [hrf]; exact hx2
        exact render_files_padding pad mfs x this
    | none =>
      cases h
      rcases List.mem_append.mp hx with hx2 | hx2
      · rcases List.mem_append.mp hx2 with hx3 | hx3
        · rcases List.mem_append.mp hx3 with hx4 | hx4
          · rcases List.mem_cons.mp hx4 with rfl | hx5
            · exact Or.inl rfl
            · split at hx5
              · cases hx5
              · rcases List.mem_singleton.mp hx5 with rfl
                exact Or.inl rfl
          · refine Or.inr ?_
            have : x ∈ (render_files pad mfs).1 := by rw [hrf]; exact hx4
            exact render_files_padding pad mfs x this
        · rcases List.mem_map.mp hx3 with ⟨n, -, rfl⟩
          exact Or.inr rfl
      · rcases List.mem_singleton.mp hx2 with rfl
        exact Or.inl rfl

/-- C6: the grouping phase's `outer_padding` is the decimal digit count of
the largest line number reached by the end of any label across the whole
diagnostic (through a well-formed `SimpleFiles` table with well-ordered
label ranges), and every entry of a rich render carries that one padding
value — it is not recomputed per file. -/
theorem c6_outer_padding :
    (∀ (sfs : SimpleFiles) (d : Diagnostic Nat) (mfs : List (Nat × MarkedFile))
        (pad : Nat),
      sfs.wf →
      (∀ l ∈ d.labels, l.range.1 ≤ l.range.2) →
      group_and_sort sfs.toIntf d = Except.ok (mfs, pad) →
      pad = count_digits ((d.labels.map (end_line_number sfs)).foldl max 0)) ∧
    (∀ {FileId : Type} [DecidableEq FileId] (fs : FilesIntf FileId)
        (d : Diagnostic FileId) (mfs : List (FileId × MarkedFile)) (pad : Nat)
        (es : List Entry) (r : Option String),
      group_and_sort fs d = Except.ok (mfs, pad) →
      RichDiagnostic.emit fs d = (es, r) →
      ∀ x ∈ es, entry_padding x = none ∨ entry_padding x = some pad) := by
  constructor
  · intro sfs d mfs pad hwf hranges hgs
    unfold group_and_sort at hgs
    cases hgroup : group_labels sfs.toIntf d d.labels [] 0 with
    | error e =>
      rw [hgroup] at hgs
      cases hgs
    | ok v =>
      obtain ⟨mfs0, pad0⟩ := v
      rw [hgroup] at hgs
      cases hgs
      have h1 := group_labels_padding sfs hwf d d.labels [] mfs0 0 pad hranges hgroup
      have h0 : (0 : Nat) = count_digits 0 := rfl
      rw [h0, foldl_count_digits_labels sfs d.labels 0] at h1
      rw [h1, List.foldl_map]
  · intro FileId _ fs d mfs pad es r hgs h
    exact emit_padding_uniform fs d mfs pad es r hgs h

/-- The C6 witness database: a ten-line file and a one-line file. -/
def c6Files : SimpleFiles :=
  SimpleFiles.mk [SimpleFile.new "a" ("a\nb\nc\nd\ne\nf\ng\nh\ni\nj\n".toList),
                  SimpleFile.new "b" ("x".toList)]

/-- The C6 witness diagnostic: a label ending on line 10 of file 0 and one
on line 1 of file 1. -/
def c6Diag : Diagnostic Nat :=
  { severity := Severity.error, code := none, message := "m",
    labels := [{ style := LabelStyle.primary, file_id := 0, range := (0, 19),
                 message := "l1" },
               { style := LabelStyle.secondary, file_id := 1, range := (0, 1),
                 message := "l2" }],
    notes := ["n"] }

/-- C6 witness. -/
theorem c6_outer_padding_witness :
    ∃ mfs : List (Nat × MarkedFile), ∃ pad : Nat,
      group_and_sort c6Files.toIntf c6Diag = Except.ok (mfs, pad) ∧
      pad = count_digits ((c6Diag.labels.map (end_line_number c6Files)).foldl max 0) ∧
      ∀ x ∈ (RichDiagnostic.emit c6Files.toIntf c6Diag).1,
        entry_padding x = none ∨ entry_padding x = some pad := by
  cases hgs : group_and_sort c6Files.toIntf c6Diag with
  | error e =>
    exfalso
    have hok : except_is_ok (group_and_sort c6Files.toIntf c6Diag) = true := by decide
    rw [hgs] at hok
    exact Bool.noConfusion hok
  | ok v =>
    obtain ⟨mfs0, pad0⟩ := v
    refine ⟨mfs0, pad0, rfl,
      c6_outer_padding.1 c6Files c6Diag mfs0 pad0 (by decide) (by decide) hgs,
      c6_outer_padding.2 c6Files.toIntf c6Diag mfs0 pad0
        (RichDiagnostic.emit c6Files.toIntf c6Diag).1
        (RichDiagnostic.emit c6Files.toIntf c6Diag).2 hgs rfl⟩

end Codespan
